import Mathlib

/-!
# Winter: fixed-length vector / square-matrix arithmetic

A shallow embedding of `src/learning/linear_algebra.h` (generic `Vec`, `SqMatrix`,
`DeterminantHelper`, `Determinant`, `SymmetricSquareMatrixInv`) over exact arithmetic,
followed by theorems about the embedded functions.

Conventions of the embedding.
* `type values[length]` is a function `Fin length → α`; an assignment `values[e] = x` whose
  index `e` is computed at run time is `Vec.set`, which takes the index as a natural number.
* A `for` loop is `forLoop`, which threads the variables assigned by the loop body.
* `int`/`size_t` counters are natural numbers; the only subtractions on them (`u - inc`,
  `v - 1`, `v - inc_v`) never go below zero in the source, so no wrap-around is modelled.
* Element arithmetic is exact (a commutative ring or a field), not IEEE floating point; the
  one place where rounding is modelled is `Vec.sigmoidRounded`, through `roundToPrecision`.
* The SIMD members return `Except Fault`: a run ends with a value, or with a rejected
  `static_assert`, an access outside the array, or an exhausted step budget. Their loop
  counters are `size_t` values, reduced modulo `2^64`.
-/

namespace Winter

universe u v

variable {α : Type u}

/-! ## Loops and storage -/

/-- The loop `for (size_t i = 0; i < n; ++i) body`: the state after `n + 1` iterations is the
body at index `n` applied to the state after the first `n` iterations. -/
def forLoop {σ : Type v} : (n : ℕ) → (Fin n → σ → σ) → σ → σ
  | 0, _, s => s
  | n + 1, body, s => body (Fin.last n) (forLoop n (fun i => body i.castSucc) s)

/-- The storage `type values[length]` of a `Vec<type, length>`. -/
abbrev Vec (α : Type u) (length : ℕ) := Fin length → α

/-- The storage `Vec<type, length> values[length]` of a `SqMatrix<type, length>`: row `i`,
column `j` is `m i j`. -/
abbrev SqMatrix (α : Type u) (length : ℕ) := Fin length → Vec α length

/-- The assignment `values[idx] = x`. -/
def Vec.set {length : ℕ} (v : Vec α length) (idx : ℕ) (x : α) : Vec α length :=
  fun k => if k.val = idx then x else v k

/-- The assignment `mat[r][c] = x`. -/
def SqMatrix.set {length : ℕ} (m : SqMatrix α length) (r c : ℕ) (x : α) : SqMatrix α length :=
  fun k => if k.val = r then Vec.set (m k) c x else m k

/-- The assignment `mat[r] = row` of a whole row. -/
def SqMatrix.setRow {length : ℕ} (m : SqMatrix α length) (r : ℕ) (row : Vec α length) :
    SqMatrix α length :=
  fun k => if k.val = r then row else m k

/-! ## Generic `Vec` -/

/-- The constructor `Vec(type val)`: every element is assigned `val`. -/
def Vec.fill {length : ℕ} (val : α) : Vec α length :=
  fun _ => val

/-- The constructor `Vec(const Vec<type, length/2> &vec_to_crelu)`. The storage is not
initialised before the loop; `garbage` stands for its previous contents. -/
def Vec.crelu [LinearOrder α] [Zero α] [Neg α] {length size : ℕ} (_h : size = length / 2)
    (garbage : Vec α length) (vec_to_crelu : Vec α size) : Vec α length :=
  forLoop size (fun i values =>
    let values := Vec.set values i.val (max (vec_to_crelu i) 0)
    Vec.set values (i.val + size) (max (-vec_to_crelu i) 0)) garbage

/-- The member `Vec::dot`, at `t = type`. -/
def Vec.dot [Add α] [Mul α] [Zero α] {length : ℕ} (values other : Vec α length) : α :=
  forLoop length (fun i s => s + values i * other i) 0

/-- The member `Vec::operator/=(const double rhs)`. -/
def Vec.divAssign [Div α] {length : ℕ} (values : Vec α length) (rhs : α) : Vec α length :=
  forLoop length (fun i values => Vec.set values i.val (values i / rhs)) values

/-! ## `SqMatrix` -/

/-- The constructor `SqMatrix(type val)`; `SqMatrix()` is `SqMatrix.fill 0`. -/
def SqMatrix.fill {length : ℕ} (val : α) : SqMatrix α length :=
  fun _ => Vec.fill val

/-- The member `SqMatrix::operator/=(const double rhs)`. -/
def SqMatrix.divAssign [Div α] {length : ℕ} (values : SqMatrix α length) (rhs : α) :
    SqMatrix α length :=
  forLoop length (fun i values => SqMatrix.setRow values i.val (Vec.divAssign (values i) rhs))
    values

/-- The local variable `mat` of `SqMatrix::transpose` when the loops have run. -/
def SqMatrix.transposeLocal [Zero α] {length : ℕ} (values : SqMatrix α length) :
    SqMatrix α length :=
  forLoop length (fun i mat =>
    forLoop length (fun j mat => SqMatrix.set mat i.val j.val (values j i)) mat)
    (SqMatrix.fill 0)

/-- The member `SqMatrix::transpose`. The pair is `(*this, mat)`; the source ends with
`return *this;`. -/
def SqMatrix.transpose [Zero α] {length : ℕ} (values : SqMatrix α length) :
    SqMatrix α length :=
  let frame : SqMatrix α length × SqMatrix α length := (values, SqMatrix.transposeLocal values)
  frame.1

/-- The member `SqMatrix::dot(const Vec<t, length> &other)`, at `t = type`. -/
def SqMatrix.dotVec [Add α] [Mul α] [Zero α] {length : ℕ} (values : SqMatrix α length)
    (other : Vec α length) : Vec α length :=
  forLoop length (fun i s => Vec.set s i.val (Vec.dot (values i) other)) (Vec.fill 0)

/-- The member `SqMatrix::dot(const SqMatrix<type, length> &other)`. -/
def SqMatrix.dot [Add α] [Mul α] [Zero α] {length : ℕ} (values other : SqMatrix α length) :
    SqMatrix α length :=
  let mat := SqMatrix.transpose other
  let result := forLoop length
    (fun i result => SqMatrix.setRow result i.val (SqMatrix.dotVec values (mat i)))
    (SqMatrix.fill 0)
  SqMatrix.transpose result

/-! ## Determinant and inverse -/

/-- The value `int sign = 1; if (k % 2) sign = -1;`. -/
def signOf (k : ℕ) : ℤ :=
  if k % 2 ≠ 0 then -1 else 1

/-- The body of `for (size_t u = 0; u < length; ++u)` in `DeterminantHelper::calculate`, with
the loop-carried variables `(h_mat, inc)`. -/
def DeterminantHelper.rowStep {n : ℕ} (mat : SqMatrix α (n + 2)) (i u : Fin (n + 2))
    (st : SqMatrix α (n + 1) × ℕ) : SqMatrix α (n + 1) × ℕ :=
  if u = i then (st.1, st.2 + 1)
  else
    (forLoop (n + 1)
      (fun k h_mat => SqMatrix.set h_mat (u.val - st.2) (k.succ.val - 1) (mat u k.succ)) st.1,
     st.2)

/-- The static member `DeterminantHelper<type, length>::calculate` for `length = n + 1`: the
specialisation `DeterminantHelper<type, 1>` at `n = 0`, the general template otherwise; the
template has no base case below `length = 1`. The loop-carried variables of the outer loop
are `(h_mat, det)`. -/
def DeterminantHelper.calculate [Ring α] : (n : ℕ) → SqMatrix α (n + 1) → α
  | 0, mat => mat 0 0
  | n + 1, mat =>
    (forLoop (n + 2)
      (fun i (st : SqMatrix α (n + 1) × α) =>
        let sign := signOf i.val
        let h_mat := (forLoop (n + 2) (DeterminantHelper.rowStep mat i) (st.1, 0)).1
        (h_mat, st.2 + (sign : α) * mat i 0 * DeterminantHelper.calculate n h_mat))
      (SqMatrix.fill 0, 0)).2

/-- The function `Determinant<type, length>` for `length = n + 1`. -/
def Determinant [Ring α] {n : ℕ} (mat : SqMatrix α (n + 1)) : α :=
  DeterminantHelper.calculate n mat

/-- The body of `for (size_t v = 0; v < length; ++v)` in `SymmetricSquareMatrixInv`, with the
loop-carried variables `(h_mat, inc_v)`; `row` is the value of `u - inc_u`. -/
def SymmetricSquareMatrixInv.colStep {n : ℕ} (mat : SqMatrix α (n + 2)) (j u : Fin (n + 2))
    (row : ℕ) (v : Fin (n + 2)) (st : SqMatrix α (n + 1) × ℕ) : SqMatrix α (n + 1) × ℕ :=
  if v = j then (st.1, st.2 + 1)
  else (SqMatrix.set st.1 row (v.val - st.2) (mat u v), st.2)

/-- The body of `for (size_t u = 0; u < length; ++u)` in `SymmetricSquareMatrixInv`, with the
loop-carried variables `(h_mat, inc_u)`. -/
def SymmetricSquareMatrixInv.rowStep {n : ℕ} (mat : SqMatrix α (n + 2)) (i j u : Fin (n + 2))
    (st : SqMatrix α (n + 1) × ℕ) : SqMatrix α (n + 1) × ℕ :=
  if u = i then (st.1, st.2 + 1)
  else
    ((forLoop (n + 2) (SymmetricSquareMatrixInv.colStep mat j u (u.val - st.2)) (st.1, 0)).1,
     st.2)

/-- The first loop nest of `SymmetricSquareMatrixInv`: the body for one `(i, j)`, with the
loop-carried variables `(adj_mat, h_mat)`. -/
def SymmetricSquareMatrixInv.cofactorStep [Ring α] {n : ℕ} (mat : SqMatrix α (n + 2))
    (i j : Fin (n + 2)) (st : SqMatrix α (n + 2) × SqMatrix α (n + 1)) :
    SqMatrix α (n + 2) × SqMatrix α (n + 1) :=
  let sign := signOf (i.val + j.val)
  let h_mat := (forLoop (n + 2) (SymmetricSquareMatrixInv.rowStep mat i j) (st.2, 0)).1
  (SqMatrix.set st.1 i.val j.val ((sign : α) * Determinant h_mat), h_mat)

/-- The second loop nest of `SymmetricSquareMatrixInv`: the body for one `(i, j)` with
`j = i + 1 + k`, exchanging `adj_mat[i][j]` and `adj_mat[j][i]` through `tmp`. -/
def SymmetricSquareMatrixInv.swapStep {n : ℕ} (i : Fin (n + 2)) (k : Fin (n + 2 - (i.val + 1)))
    (adj_mat : SqMatrix α (n + 2)) : SqMatrix α (n + 2) :=
  let j : Fin (n + 2) := ⟨i.val + 1 + k.val, by omega⟩
  let tmp := adj_mat i j
  let adj_mat := SqMatrix.set adj_mat i.val j.val (adj_mat j i)
  SqMatrix.set adj_mat j.val i.val tmp

/-- The function `SymmetricSquareMatrixInv<type, length>` for `length = n + 2` (the lengths at
which `Determinant<type, length - 1>` has an instance). -/
def SymmetricSquareMatrixInv [Ring α] [Div α] {n : ℕ} (mat : SqMatrix α (n + 2)) : SqMatrix α (n + 2) :=
  let det := Determinant mat
  let filled := forLoop (n + 2)
    (fun i st => forLoop (n + 2) (fun j st => SymmetricSquareMatrixInv.cofactorStep mat i j st) st)
    ((SqMatrix.fill 0 : SqMatrix α (n + 2)), (SqMatrix.fill 0 : SqMatrix α (n + 1)))
  let adj_mat := forLoop (n + 2)
    (fun i adj_mat =>
      forLoop (n + 2 - (i.val + 1)) (fun k adj_mat => SymmetricSquareMatrixInv.swapStep i k adj_mat)
        adj_mat)
    filled.1
  SqMatrix.divAssign adj_mat det

/-! ## Reference notions the claims are stated against -/

/-- The matrix `mat` with row `i` and column `j` deleted. -/
def minor {n : ℕ} (mat : SqMatrix α (n + 2)) (i j : Fin (n + 2)) : SqMatrix α (n + 1) :=
  fun r c => mat (i.succAbove r) (j.succAbove c)

/-- The naive triple-loop matrix product: `result[i][k] = Σ_j a[i][j] * b[j][k]`. -/
def SqMatrix.naiveDot [Semiring α] {length : ℕ} (a b : SqMatrix α length) : SqMatrix α length :=
  fun i k => ∑ j, a i j * b j k

/-- The identity matrix. -/
def SqMatrix.identity [Zero α] [One α] {length : ℕ} : SqMatrix α length :=
  fun i k => if i = k then 1 else 0

/-- A symmetric positive-definite matrix: `m[i][j] = m[j][i]`, and `xᵀ m x > 0` for every
non-zero vector `x`. -/
def IsSymmPosDef [OrderedSemiring α] {length : ℕ} (m : SqMatrix α length) : Prop :=
  (∀ i j, m i j = m j i) ∧ ∀ x : Vec α length, x ≠ 0 → 0 < ∑ i, ∑ j, x i * m i j * x j

/-! ## Concrete inputs -/

/-- The matrix `[[2,0],[0,3]]`. -/
def exampleDiag : SqMatrix ℚ 2 := ![![2, 0], ![0, 3]]

/-- The singular symmetric matrix `[[1,2],[2,4]]`. -/
def exampleSingular : SqMatrix ℚ 2 := ![![1, 2], ![2, 4]]

/-- The matrix `[[1,2],[3,4]]`. -/
def exampleA : SqMatrix ℤ 2 := ![![1, 2], ![3, 4]]

/-- The matrix `[[0,1],[0,0]]`. -/
def exampleB : SqMatrix ℤ 2 := ![![0, 1], ![0, 0]]

/-- A symmetric positive-definite 4×4 matrix that is not diagonal. -/
def exampleSPD : SqMatrix ℚ 4 :=
  ![![2, 1, 0, 0], ![1, 2, 0, 0], ![0, 0, 1, 0], ![0, 0, 0, 1]]

/-! ## Generic `Vec`: element-wise operators and activations -/

/-- The member `Vec::operator+=(const Vec &rhs)`. -/
def Vec.addAssign [Add α] {length : ℕ} (values rhs : Vec α length) : Vec α length :=
  forLoop length (fun i values => Vec.set values i.val (values i + rhs i)) values

/-- The member `Vec::operator-=(const Vec &rhs)`. -/
def Vec.subAssign [Sub α] {length : ℕ} (values rhs : Vec α length) : Vec α length :=
  forLoop length (fun i values => Vec.set values i.val (values i - rhs i)) values

/-- The member `Vec::operator*=(const Vec &rhs)`. -/
def Vec.mulAssign [Mul α] {length : ℕ} (values rhs : Vec α length) : Vec α length :=
  forLoop length (fun i values => Vec.set values i.val (values i * rhs i)) values

/-- The friend `operator+(Vec lhs, const Vec &rhs)`: `lhs` is the callee's own copy of the
left operand, `rhs` is read only. -/
def Vec.add [Add α] {length : ℕ} (lhs rhs : Vec α length) : Vec α length :=
  let lhs := Vec.addAssign lhs rhs
  lhs

/-- The friend `operator-(Vec lhs, const Vec &rhs)`. -/
def Vec.sub [Sub α] {length : ℕ} (lhs rhs : Vec α length) : Vec α length :=
  let lhs := Vec.subAssign lhs rhs
  lhs

/-- The free function `operator==(const Vec &lhs, const Vec &rhs)`. -/
def Vec.eq [DecidableEq α] {length : ℕ} (lhs rhs : Vec α length) : Bool :=
  forLoop length (fun i res => res && decide (lhs i = rhs i)) true

/-- The caller's scope after evaluating `(a + b) - b == a`: the contents of `a`, the contents
of `b`, and the value of the expression. `operator+` and `operator-` work on copies of their
left operand and read their right operand through a const reference. -/
def evalAddSubEq [DecidableEq α] [Add α] [Sub α] {length : ℕ} (a b : Vec α length) :
    Vec α length × Vec α length × Bool :=
  let sum := Vec.add a b
  let diff := Vec.sub sum b
  (a, b, Vec.eq diff a)

/-- The member `Vec::relu`; the returned reference is to the receiver, whose new contents are
the value. -/
def Vec.relu [LinearOrder α] [Zero α] {length : ℕ} (values : Vec α length) : Vec α length :=
  forLoop length (fun i values => Vec.set values i.val (max (values i) 0)) values

/-- The member `Vec::ns_prelu(const Vec<type, length> &alpha)`. -/
def Vec.ns_prelu [LinearOrder α] [Mul α] {length : ℕ} (values alpha : Vec α length) :
    Vec α length :=
  forLoop length (fun i values => Vec.set values i.val (max (values i) (values i * alpha i)))
    values

/-- The member `Vec::ns_prelu(const std::array<type, length> &alpha)`; the array is the
function `alpha`. -/
def Vec.ns_prelu_array [LinearOrder α] [Mul α] {length : ℕ} (values : Vec α length)
    (alpha : Fin length → α) : Vec α length :=
  forLoop length (fun i values => Vec.set values i.val (max (values i) (values i * alpha i)))
    values

/-- The member `Vec::sigmoid`; `exp` stands for the library function `std::exp`. -/
def Vec.sigmoid [One α] [Add α] [Neg α] [Div α] {length : ℕ} (exp : α → α)
    (values : Vec α length) : Vec α length :=
  forLoop length (fun i values => Vec.set values i.val (1 / (1 + exp (-values i)))) values

/-- The member `Vec::FMA(const Vec &a, const type &b)`. -/
def Vec.FMAScalar [Add α] [Mul α] {length : ℕ} (values a : Vec α length) (b : α) :
    Vec α length :=
  forLoop length (fun i values => Vec.set values i.val (values i + a i * b)) values

/-- The member `Vec::FMA(const Vec &a, const Vec &b)`. -/
def Vec.FMA [Add α] [Mul α] {length : ℕ} (values a b : Vec α length) : Vec α length :=
  forLoop length (fun i values => Vec.set values i.val (values i + a i * b i)) values

/-- The standard parametric ReLU the claims compare with: `x` for `x ≥ 0`, `alpha · x`
otherwise. -/
def prelu [LinearOrder α] [Zero α] [Mul α] (alpha x : α) : α :=
  if 0 ≤ x then x else alpha * x

/-! ## SIMD backends

The AVX backend works on registers of 8 lanes (`__m256`), the SSE backend on registers of 4
lanes (`__m128`); the two are the same text up to that lane width `w`, so each member is
embedded once with `w` as a parameter. Lane arithmetic is exact. -/

/-- What stops a run of the SIMD code short of a result. -/
inductive Fault where
  | staticAssert
  | outOfBounds
  | outOfFuel
  deriving DecidableEq

/-- Subtraction of `size_t` values. -/
def sizeSub (a b : ℕ) : ℕ :=
  (a + (2 ^ 64 - b % 2 ^ 64)) % 2 ^ 64

/-- Addition of `size_t` values. -/
def sizeAdd (a b : ℕ) : ℕ :=
  (a + b) % 2 ^ 64

/-- A register of `w` lanes: `__m256` is `Reg α 8`, `__m128` is `Reg α 4`. -/
abbrev Reg (α : Type u) (w : ℕ) := Fin w → α

/-- The lanes read by `_mm256_loadu_ps(&values[i])` / `_mm_loadu_ps(&values[i])` when all of
them lie inside the array. -/
def loaduIn {length : ℕ} (w : ℕ) (values : Vec α length) (i : ℕ) (h : i + w ≤ length) :
    Reg α w :=
  fun l => values ⟨i + l.val, by omega⟩

/-- The array after `_mm256_storeu_ps(&values[i], r)` / `_mm_storeu_ps(&values[i], r)`, for
the lanes that lie inside the array. -/
def storeuRaw {length : ℕ} (w : ℕ) (values : Vec α length) (i : ℕ) (r : Reg α w) :
    Vec α length :=
  fun k => if h : i ≤ k.val ∧ k.val < i + w then r ⟨k.val - i, by omega⟩ else values k

/-- The intrinsic `_mm256_loadu_ps(&values[i])` / `_mm_loadu_ps(&values[i])`; reading beyond
the last element of the array is a fault. -/
def loadu {length : ℕ} (w : ℕ) (values : Vec α length) (i : ℕ) : Except Fault (Reg α w) :=
  if h : i + w ≤ length then Except.ok (loaduIn w values i h) else Except.error Fault.outOfBounds

/-- The intrinsic `_mm256_storeu_ps(&values[i], r)` / `_mm_storeu_ps(&values[i], r)`; writing
beyond the last element of the array is a fault. -/
def storeu {length : ℕ} (w : ℕ) (values : Vec α length) (i : ℕ) (r : Reg α w) :
    Except Fault (Vec α length) :=
  if i + w ≤ length then Except.ok (storeuRaw w values i r) else Except.error Fault.outOfBounds

/-- The intrinsic `_mm256_set1_ps` / `_mm_set1_ps`. -/
def mm_set1_ps {w : ℕ} (x : α) : Reg α w :=
  fun _ => x

/-- The intrinsic `_mm256_add_ps` / `_mm_add_ps`. -/
def mm_add_ps [Add α] {w : ℕ} (a b : Reg α w) : Reg α w :=
  fun l => a l + b l

/-- The intrinsic `_mm256_mul_ps` / `_mm_mul_ps`. -/
def mm_mul_ps [Mul α] {w : ℕ} (a b : Reg α w) : Reg α w :=
  fun l => a l * b l

/-- The intrinsic `_mm256_max_ps` / `_mm_max_ps`. -/
def mm_max_ps [LinearOrder α] {w : ℕ} (a b : Reg α w) : Reg α w :=
  fun l => max (a l) (b l)

/-- The inline function `fmadd_ps(a, b, c)`: `add_ps(mul_ps(a, b), c)`. -/
def fmadd_ps [Add α] [Mul α] {w : ℕ} (a b c : Reg α w) : Reg α w :=
  mm_add_ps (mm_mul_ps a b) c

/-- The intrinsic `_mm256_extractf128_ps(x, imm)`. -/
def mm256_extractf128_ps (x : Reg α 8) (imm : ℕ) : Reg α 4 :=
  fun l => x ⟨4 * (imm % 2) + l.val, by omega⟩

/-- The intrinsic `_mm256_castps256_ps128(x)`: the low four lanes. -/
def mm256_castps256_ps128 (x : Reg α 8) : Reg α 4 :=
  fun l => x ⟨l.val, by omega⟩

/-- The intrinsic `_mm_movehl_ps(a, b)`: `(b[2], b[3], a[2], a[3])`. -/
def mm_movehl_ps (a b : Reg α 4) : Reg α 4 :=
  ![b 2, b 3, a 2, a 3]

/-- The intrinsic `_mm_shuffle_ps(a, b, imm)`:
`(a[imm & 3], a[(imm >> 2) & 3], b[(imm >> 4) & 3], b[(imm >> 6) & 3])`. -/
def mm_shuffle_ps (a b : Reg α 4) (imm : ℕ) : Reg α 4 :=
  ![a ⟨imm % 4, by omega⟩, a ⟨imm / 4 % 4, by omega⟩,
    b ⟨imm / 16 % 4, by omega⟩, b ⟨imm / 64 % 4, by omega⟩]

/-- The value `_MM_SHUFFLE(z, y, x, w)`: `(z << 6) | (y << 4) | (x << 2) | w`, for arguments
below 4. -/
def MM_SHUFFLE (z y x w : ℕ) : ℕ :=
  z * 64 + y * 16 + x * 4 + w

/-- The intrinsic `_mm_add_ss(a, b)`: lane 0 is added, lanes 1 to 3 come from `a`. -/
def mm_add_ss [Add α] (a b : Reg α 4) : Reg α 4 :=
  ![a 0 + b 0, a 1, a 2, a 3]

/-- The intrinsic `_mm_cvtss_f32(a)`: lane 0. -/
def mm_cvtss_f32 (a : Reg α 4) : α :=
  a 0

/-- The function `sum8(__m256 x)`. -/
def sum8 [Add α] (x : Reg α 8) : α :=
  let hiQuad := mm256_extractf128_ps x 1
  let loQuad := mm256_castps256_ps128 x
  let sumQuad := mm_add_ps loQuad hiQuad
  let loDual := sumQuad
  let hiDual := mm_movehl_ps sumQuad sumQuad
  let sumDual := mm_add_ps loDual hiDual
  let lo := sumDual
  let hi := mm_shuffle_ps sumDual sumDual 1
  let sum := mm_add_ss lo hi
  mm_cvtss_f32 sum

/-- The function `sum4(__m128 v)`. -/
def sum4 [Add α] (v : Reg α 4) : α :=
  let shuf := mm_shuffle_ps v v (MM_SHUFFLE 2 3 0 1)
  let sums := mm_add_ps v shuf
  let shuf := mm_movehl_ps shuf sums
  let sums := mm_add_ss sums shuf
  mm_cvtss_f32 sums

/-- The loop `for (size_t i = start; i <= length - w; i += w) body`, with `length - w` and
`i += w` evaluated in `size_t`. `fuel` bounds the number of times the condition is
evaluated. -/
def simdLoop {σ : Type v} (w length : ℕ) (body : ℕ → σ → Except Fault σ) :
    ℕ → ℕ → σ → Except Fault σ
  | 0, _, _ => Except.error Fault.outOfFuel
  | fuel + 1, i, s =>
    if i ≤ sizeSub length w then
      match body i s with
      | Except.ok t => simdLoop w length body fuel (sizeAdd i w) t
      | Except.error e => Except.error e
    else Except.ok s

/-- The member `Vec<float, length>::operator+=` of the SIMD backends. -/
def FloatVec.addAssign [Add α] {length : ℕ} (w fuel : ℕ) (values rhs : Vec α length) :
    Except Fault (Vec α length) :=
  simdLoop w length
    (fun i values =>
      (loadu w values i).bind fun v1 =>
      (loadu w rhs i).bind fun v2 =>
      storeu w values i (mm_add_ps v1 v2))
    fuel 0 values

/-- The member `Vec<float, length>::operator*=` of the SIMD backends. -/
def FloatVec.mulAssign [Mul α] {length : ℕ} (w fuel : ℕ) (values rhs : Vec α length) :
    Except Fault (Vec α length) :=
  simdLoop w length
    (fun i values =>
      (loadu w values i).bind fun v1 =>
      (loadu w rhs i).bind fun v2 =>
      storeu w values i (mm_mul_ps v1 v2))
    fuel 0 values

/-- The member `Vec<float, length>::relu` of the SIMD backends. -/
def FloatVec.relu [LinearOrder α] [Zero α] {length : ℕ} (w fuel : ℕ) (values : Vec α length) :
    Except Fault (Vec α length) :=
  let zero : Reg α w := mm_set1_ps 0
  simdLoop w length
    (fun i values =>
      (loadu w values i).bind fun v1 =>
      storeu w values i (mm_max_ps v1 zero))
    fuel 0 values

/-- The guard `static_assert(length == 8 * (length / 8), ...)`, written with the literal 8 in
the AVX and in the SSE backend. -/
def staticAssertLength (length : ℕ) : Bool :=
  length == 8 * (length / 8)

/-- The member `Vec<float, length>::FMA(const Vec &a, const type &b)` of the SIMD
backends. -/
def FloatVec.FMAScalar [Add α] [Mul α] {length : ℕ} (w fuel : ℕ) (values a : Vec α length)
    (b : α) : Except Fault (Vec α length) :=
  if staticAssertLength length then
    let vb : Reg α w := mm_set1_ps b
    simdLoop w length
      (fun i values =>
        (loadu w values i).bind fun c =>
        (loadu w a i).bind fun va =>
        storeu w values i (fmadd_ps va vb c))
      fuel 0 values
  else Except.error Fault.staticAssert

/-- The member `Vec<float, length>::FMA(const Vec &a, const Vec &b)` of the SIMD backends. -/
def FloatVec.FMA [Add α] [Mul α] {length : ℕ} (w fuel : ℕ) (values a b : Vec α length) :
    Except Fault (Vec α length) :=
  if staticAssertLength length then
    simdLoop w length
      (fun i values =>
        (loadu w values i).bind fun c =>
        (loadu w a i).bind fun va =>
        (loadu w b i).bind fun vb =>
        storeu w values i (fmadd_ps va vb c))
      fuel 0 values
  else Except.error Fault.staticAssert

/-- The member `Vec<float, length>::dot` of the SIMD backends; `hsum` is the horizontal
reduction, `sum8` for AVX and `sum4` for SSE. -/
def FloatVec.dot [Add α] [Mul α] [Zero α] {length : ℕ} (w : ℕ) (hsum : Reg α w → α)
    (fuel : ℕ) (values other : Vec α length) : Except Fault α :=
  if staticAssertLength length then
    (simdLoop w length
      (fun i (c : Reg α w) =>
        (loadu w values i).bind fun va =>
        (loadu w other i).bind fun vb =>
        Except.ok (fmadd_ps va vb c))
      fuel 0 (mm_set1_ps 0)).map hsum
  else Except.error Fault.staticAssert

/-- The storage `__m256 values[arr_length]` / `__m128 values[arr_length]` of the
packed-register vector, with `arr_length = length / w`. -/
abbrev PackedVec (α : Type u) (w length : ℕ) := Fin (length / w) → Reg α w

/-- The constructor `Vec<__m256, length>(Vec<float, length> input)` /
`Vec<__m128, length>(...)`; `garbage` stands for the uninitialised storage. Register `i` is
loaded from `&input.values[i * w]`, which lies inside the array for every `i < arr_length`. -/
def PackedVec.load {length : ℕ} (w : ℕ) (garbage : PackedVec α w length)
    (input : Vec α length) : PackedVec α w length :=
  forLoop (length / w)
    (fun i values => Vec.set values i.val
      (loaduIn w input (i.val * w) (by
        have h1 : (i.val + 1) * w ≤ length / w * w := Nat.mul_le_mul_right w i.isLt
        have h2 : length / w * w ≤ length := Nat.div_mul_le_self length w
        have h3 : (i.val + 1) * w = i.val * w + w := Nat.succ_mul i.val w
        omega)))
    garbage

/-- The member `to_simple_vec` of the packed-register vector; `garbage` stands for the
uninitialised `result`. -/
def PackedVec.to_simple_vec {length : ℕ} (w : ℕ) (garbage : Vec α length)
    (values : PackedVec α w length) : Vec α length :=
  forLoop (length / w) (fun i result => storeuRaw w result (w * i.val) (values i)) garbage

/-- The member `FMA(const Vec<float, length> &a, const float &b)` of the packed-register
vector; it carries no `static_assert`. -/
def PackedVec.FMAFloat [Add α] [Mul α] {length : ℕ} (w : ℕ) (values : PackedVec α w length)
    (a : Vec α length) (b : α) : PackedVec α w length :=
  let vb : Reg α w := mm_set1_ps b
  forLoop (length / w)
    (fun i values =>
      let va := loaduIn w a (w * i.val) (by
        have h1 : w * (i.val + 1) ≤ w * (length / w) := Nat.mul_le_mul_left w i.isLt
        have h2 : w * (length / w) ≤ length := Nat.mul_div_le length w
        have h3 : w * (i.val + 1) = w * i.val + w := Nat.mul_succ w i.val
        omega)
      Vec.set values i.val (fmadd_ps va vb (values i)))
    values

/-- The member `FMA(const Vec<__m256, length> &a, const float &b)` of the packed-register
vector (`__m128` for SSE); it carries no `static_assert`. -/
def PackedVec.FMA [Add α] [Mul α] {length : ℕ} (w : ℕ) (values a : PackedVec α w length)
    (b : α) : PackedVec α w length :=
  let vb : Reg α w := mm_set1_ps b
  forLoop (length / w)
    (fun i values => Vec.set values i.val (fmadd_ps (a i) vb (values i)))
    values

/-- The member `dot` of the packed-register vector; it carries no `static_assert`. -/
def PackedVec.dot [Add α] [Mul α] [Zero α] {length : ℕ} (w : ℕ) (hsum : Reg α w → α)
    (values other : PackedVec α w length) : α :=
  hsum (forLoop (length / w) (fun i c => fmadd_ps (values i) (other i) c) (mm_set1_ps 0))

/-- The array with `F k` applied to the elements of the block `[i, i + w)`: what one
iteration of an element-wise SIMD loop leaves. -/
def blockMap {length : ℕ} (w : ℕ) (F : Fin length → α → α) (i : ℕ) (values : Vec α length) :
    Vec α length :=
  fun k => if i ≤ k.val ∧ k.val < i + w then F k (values k) else values k

/-! ## Concrete inputs for the SIMD backends -/

/-- The vector of twelve ones. -/
def exampleOnes12 : Vec ℤ 12 := fun _ => 1

/-- The vector `(1, -2, 3, -4, 5, -6, 7, -8)`. -/
def exampleSigned8 : Vec ℤ 8 := ![1, -2, 3, -4, 5, -6, 7, -8]

/-- The vector `(1, 2, 3, 4, 5, 6, 7, 8)`. -/
def exampleIota8 : Vec ℤ 8 := ![1, 2, 3, 4, 5, 6, 7, 8]

/-! ## Further members used by the later claims -/

/-- The friend `operator*(Vec lhs, const Vec &rhs)`: `lhs` is the callee's own copy of the
left operand. -/
def Vec.mul [Mul α] {length : ℕ} (lhs rhs : Vec α length) : Vec α length :=
  let lhs := Vec.mulAssign lhs rhs
  lhs

/-- The caller's scope after `self.FMA(a, b)`: the contents of `self`, of `a` and of `b`.
`FMA` writes to its receiver only and reads `a` and `b` through const references. -/
def evalFMA [Add α] [Mul α] {length : ℕ} (self a b : Vec α length) :
    Vec α length × Vec α length × Vec α length :=
  (Vec.FMA self a b, a, b)

/-- The member `operator+=(const Vec<__m256, length> &rhs)` of the packed-register vector
(`__m128` for SSE). -/
def PackedVec.addAssign [Add α] {length : ℕ} (w : ℕ) (values rhs : PackedVec α w length) :
    PackedVec α w length :=
  forLoop (length / w) (fun i values => Vec.set values i.val (mm_add_ps (values i) (rhs i)))
    values

/-- The member `relu` of the packed-register vector. -/
def PackedVec.relu [LinearOrder α] [Zero α] {length : ℕ} (w : ℕ)
    (values : PackedVec α w length) : PackedVec α w length :=
  let zero : Reg α w := mm_set1_ps 0
  forLoop (length / w) (fun i values => Vec.set values i.val (mm_max_ps (values i) zero))
    values

/-! ## Move packing (`general/types.h`)

`Square`, `Move` and `MoveType` are `int32_t`; the functions are embedded on natural numbers,
the non-negative values. In the range of the claims (squares below 64, move types up to 8)
the largest move is 36863, so no operation overflows 32 bits. -/

/-- The constant `kNormalMove`. -/
def kNormalMove : ℕ := 0

/-- The constant `kCastle`. -/
def kCastle : ℕ := 1

/-- The constant `kDoublePawnMove`. -/
def kDoublePawnMove : ℕ := 2

/-- The constant `kEnPassant`. -/
def kEnPassant : ℕ := 3

/-- The constant `kCapture`. -/
def kCapture : ℕ := 4

/-- The constant `kKnightPromotion`. -/
def kKnightPromotion : ℕ := 5

/-- The constant `kBishopPromotion`. -/
def kBishopPromotion : ℕ := 6

/-- The constant `kRookPromotion`. -/
def kRookPromotion : ℕ := 7

/-- The constant `kQueenPromotion`. -/
def kQueenPromotion : ℕ := 8

/-- The function `GetMoveSource`: `(move >> 6) & 0x3F`. -/
def GetMoveSource (move : ℕ) : ℕ :=
  (move >>> 6) &&& 0x3F

/-- The function `GetMoveDestination`: `move & 0x3F`. -/
def GetMoveDestination (move : ℕ) : ℕ :=
  move &&& 0x3F

/-- The function `GetMoveType`: `move >> 12`. -/
def GetMoveType (move : ℕ) : ℕ :=
  move >>> 12

/-- The function `IsMoveForcing`: `(GetMoveType(move) + 5) >> 3`. -/
def IsMoveForcing (move : ℕ) : ℕ :=
  (GetMoveType move + 5) >>> 3

/-- The function `GetMove`: `move_type << 12 | (source << 6) | destination`; the source gives
`move_type` the default `kNormalMove`. -/
def GetMove (source destination move_type : ℕ) : ℕ :=
  ((move_type <<< 12) ||| (source <<< 6)) ||| destination

/-! ## Concrete inputs for the later claims -/

/-- The vector of four ones. -/
def exampleOnes4 : Vec ℤ 4 := fun _ => 1

/-- The symmetric matrix `[[2,1],[1,2]]`. -/
def exampleSymm : SqMatrix ℤ 2 := ![![2, 1], ![1, 2]]

/-- The matrix `[[1,1],[1,1]]`, which commutes with `exampleSymm`. -/
def exampleAllOnes : SqMatrix ℤ 2 := ![![1, 1], ![1, 1]]

/-! ## Instantiating the determinant and the inverse

`Determinant<type, length>` and `SymmetricSquareMatrixInv<type, length>` are function
templates; a call exists only where the template can be instantiated. The functions below
follow what an instantiation needs: the template argument `length - 1` is computed in
`size_t`, every `SqMatrix<type, n>` that is declared must be an object type, and every
`DeterminantHelper` that is named must itself be instantiated. -/

/-- Whether `SqMatrix<type, n>` is an object type: its member `Vec<type, n> values[n]` takes
`n * n * sizeof(type)` bytes, and no object is larger than `PTRDIFF_MAX = 2^63 - 1` bytes.
(Length 0 is let through, as compilers with zero-length arrays do.) -/
def SqMatrix.isObjectType (elemSize n : ℕ) : Bool :=
  decide (n * n * elemSize ≤ 2 ^ 63 - 1)

/-- Whether `DeterminantHelper<type, length>::calculate` can be instantiated within `depth`
nested instantiations. The specialisation `DeterminantHelper<type, 1>` needs nothing further;
the general template declares `SqMatrix<type, length - 1> h_mat` and calls
`DeterminantHelper<type, length - 1>::calculate`. -/
def DeterminantHelper.instantiates (elemSize : ℕ) : ℕ → ℕ → Bool
  | 0, _ => false
  | depth + 1, length =>
    if length = 1 then true
    else
      SqMatrix.isObjectType elemSize (sizeSub length 1) &&
        DeterminantHelper.instantiates elemSize depth (sizeSub length 1)

/-- Whether `SymmetricSquareMatrixInv<type, length>` can be instantiated: it calls
`Determinant<type, length>`, declares `SqMatrix<type, length - 1> h_mat` and calls
`Determinant<type, length - 1>`. -/
def SymmetricSquareMatrixInv.instantiates (elemSize depth length : ℕ) : Bool :=
  DeterminantHelper.instantiates elemSize depth length &&
    (SqMatrix.isObjectType elemSize (sizeSub length 1) &&
      DeterminantHelper.instantiates elemSize depth (sizeSub length 1))

/-- The call `SymmetricSquareMatrixInv<type, length>(mat)` in a program: where the template
cannot be instantiated the program is rejected and the call yields nothing; where it can, the
call yields the routine's value. `elemSize` is `sizeof(type)`, `depth` the compiler's
instantiation depth. (An instantiable length is at least 2, so the last case is never
reached.) -/
def SymmetricSquareMatrixInv.call [Ring α] [Div α] (elemSize depth length : ℕ)
    (mat : SqMatrix α length) : Option (SqMatrix α length) :=
  if SymmetricSquareMatrixInv.instantiates elemSize depth length then
    match length, mat with
    | _ + 2, mat => some (SymmetricSquareMatrixInv mat)
    | _, _ => none
  else none

/-! ## The sigmoid in floating point -/

/-- Rounding to the nearest number with a `p`-bit significand (`p = 24` for `float`, `p = 53`
for `double`): `x` is scaled by the power of two that brings it into `[2^(p-1), 2^p)`,
rounded to an integer and scaled back. The exponent range is not bounded, so overflow and
underflow are not modelled. -/
def roundToPrecision [LinearOrderedField α] [FloorRing α] (p : ℕ) (x : α) : α :=
  if x = 0 then 0
  else
    (round (x / (2 : α) ^ (Int.log 2 |x| - ((p : ℤ) - 1))) : α)
      * (2 : α) ^ (Int.log 2 |x| - ((p : ℤ) - 1))

/-- The member `Vec::sigmoid` in the arithmetic of the element type: the sum `1 + exp(-x)` and
the quotient are each rounded by `rnd`; `exp` stands for the library function `std::exp`,
whose results are values of the element type. -/
def Vec.sigmoidRounded [One α] [Add α] [Neg α] [Div α] {length : ℕ} (rnd exp : α → α)
    (values : Vec α length) : Vec α length :=
  forLoop length
    (fun i values => Vec.set values i.val (rnd (1 / rnd (1 + exp (-values i))))) values

/-! ## Loop reasoning -/

theorem forLoop_zero {σ : Type v} (body : Fin 0 → σ → σ) (s : σ) : forLoop 0 body s = s := rfl

theorem forLoop_succ {σ : Type v} (n : ℕ) (body : Fin (n + 1) → σ → σ) (s : σ) :
    forLoop (n + 1) body s = body (Fin.last n) (forLoop n (fun i => body i.castSucc) s) := rfl

/-- Invariant rule for `forLoop`: a predicate on (iterations done, state) that holds at the
start and is carried across each iteration holds at the end. -/
theorem forLoop_invariant {σ : Type v} (P : ℕ → σ → Prop) :
    ∀ (n : ℕ) (body : Fin n → σ → σ) (s : σ), P 0 s →
      (∀ (i : Fin n) (t : σ), P i.val t → P (i.val + 1) (body i t)) →
      P n (forLoop n body s) := by
  intro n
  induction n with
  | zero => intro body s h0 _; exact h0
  | succ n ih =>
    intro body s h0 hstep
    rw [forLoop_succ]
    have hprev : P n (forLoop n (fun i => body i.castSucc) s) :=
      ih (fun i => body i.castSucc) s h0 (fun i t ht => hstep i.castSucc t ht)
    exact hstep (Fin.last n) _ hprev

/-- A loop whose body adds a state-independent term accumulates the sum of the terms. -/
theorem forLoop_add_eq_sum [AddCommMonoid α] :
    ∀ (n : ℕ) (g : Fin n → α) (s : α),
      forLoop n (fun i acc => acc + g i) s = s + ∑ i, g i := by
  intro n
  induction n with
  | zero => intro g s; simp [forLoop_zero]
  | succ n ih =>
    intro g s
    rw [forLoop_succ, ih, Fin.sum_univ_castSucc, add_assoc]

/-- A loop that assigns `values[i] = g i` in iteration `i` builds the vector `g`. -/
theorem forLoop_set_eq {n : ℕ} (g : Fin n → α) (v : Vec α n) :
    forLoop n (fun i w => Vec.set w i.val (g i)) v = g := by
  have h := forLoop_invariant
    (fun (k : ℕ) (w : Vec α n) => ∀ j : Fin n, j.val < k → w j = g j) n
    (fun i w => Vec.set w i.val (g i)) v (by intro j hj; omega)
    (by
      intro i t ht j hj
      by_cases hji : j.val = i.val
      · have : j = i := Fin.ext hji
        subst this
        simp [Vec.set]
      · have hlt : j.val < i.val := by omega
        simp [Vec.set, hji, ht j hlt])
  funext j
  exact h j j.isLt

/-- A loop that assigns `values[i] = f i values[i]` in iteration `i` maps `f` over the
vector. -/
theorem forLoop_update_eq {n : ℕ} (f : Fin n → α → α) (v : Vec α n) :
    forLoop n (fun i w => Vec.set w i.val (f i (w i))) v = fun i => f i (v i) := by
  have h := forLoop_invariant
    (fun (k : ℕ) (w : Vec α n) => ∀ j : Fin n,
      (j.val < k → w j = f j (v j)) ∧ (k ≤ j.val → w j = v j)) n
    (fun i w => Vec.set w i.val (f i (w i))) v
    (by intro j; exact ⟨fun hj => by omega, fun _ => rfl⟩)
    (by
      intro i t ht j
      by_cases hji : j.val = i.val
      · have : j = i := Fin.ext hji
        subst this
        refine ⟨fun _ => ?_, fun hj => by omega⟩
        simp [Vec.set, (ht j).2 le_rfl]
      · refine ⟨fun hj => ?_, fun hj => ?_⟩
        · have hlt : j.val < i.val := by omega
          simp [Vec.set, hji, (ht j).1 hlt]
        · have hle : i.val ≤ j.val := by omega
          simp [Vec.set, hji, (ht j).2 hle])
  funext j
  exact (h j).1 j.isLt

/-- A loop that assigns the whole row `mat[i] = g i` in iteration `i` builds the matrix `g`. -/
theorem forLoop_setRow_eq {n : ℕ} (g : Fin n → Vec α n) (m : SqMatrix α n) :
    forLoop n (fun i w => SqMatrix.setRow w i.val (g i)) m = g :=
  forLoop_set_eq g m

/-! ## `Vec` and `SqMatrix` products -/

theorem Vec.dot_eq_sum [Semiring α] {n : ℕ} (a b : Vec α n) :
    Vec.dot a b = ∑ j, a j * b j := by
  unfold Vec.dot
  rw [forLoop_add_eq_sum]
  simp

theorem SqMatrix.dotVec_apply [Semiring α] {n : ℕ} (m : SqMatrix α n) (v : Vec α n)
    (i : Fin n) : SqMatrix.dotVec m v i = ∑ j, m i j * v j := by
  unfold SqMatrix.dotVec
  rw [forLoop_set_eq (fun i => Vec.dot (m i) v)]
  exact Vec.dot_eq_sum _ _

theorem SqMatrix.transpose_eq [Zero α] {n : ℕ} (m : SqMatrix α n) :
    SqMatrix.transpose m = m := rfl

theorem SqMatrix.dot_apply [Semiring α] {n : ℕ} (a b : SqMatrix α n) (i k : Fin n) :
    SqMatrix.dot a b i k = ∑ j, a k j * b i j := by
  unfold SqMatrix.dot
  simp only [SqMatrix.transpose_eq]
  rw [forLoop_setRow_eq (fun i => SqMatrix.dotVec a (b i))]
  exact SqMatrix.dotVec_apply _ _ _

/-! ## The minor built by the copy loops -/

theorem succAbove_val {n : ℕ} (p : Fin (n + 2)) (r : Fin (n + 1)) :
    (p.succAbove r).val = if r.val < p.val then r.val else r.val + 1 := by
  unfold Fin.succAbove
  by_cases h : r.castSucc < p
  · have h2 : r.val < p.val := h
    simp [h, h2]
  · have h2 : ¬ r.val < p.val := h
    simp [h, h2]

/-- The row loop shared by `DeterminantHelper::calculate` and `SymmetricSquareMatrixInv`:
skipping row `i` (and counting it in `inc`) while copying row `u` of the source to row
`u - inc` of `h_mat` leaves row `r` of `h_mat` holding the copy of source row
`i.succAbove r`. -/
theorem rowLoop_eq {n : ℕ} (i : Fin (n + 2)) (g : Fin (n + 2) → Vec α (n + 1))
    (fill : Fin (n + 2) → ℕ → SqMatrix α (n + 1) → SqMatrix α (n + 1))
    (hfill : ∀ u row h, fill u row h = SqMatrix.setRow h row (g u))
    (h0 : SqMatrix α (n + 1)) :
    (forLoop (n + 2)
      (fun u (st : SqMatrix α (n + 1) × ℕ) =>
        if u = i then (st.1, st.2 + 1) else (fill u (u.val - st.2) st.1, st.2))
      (h0, 0)).1 = fun r => g (i.succAbove r) := by
  have h := forLoop_invariant
    (fun (k : ℕ) (st : SqMatrix α (n + 1) × ℕ) =>
      st.2 = (if i.val < k then 1 else 0) ∧
      ∀ r : Fin (n + 1), st.1 r = if r.val + st.2 < k then g (i.succAbove r) else h0 r)
    (n + 2)
    (fun u (st : SqMatrix α (n + 1) × ℕ) =>
      if u = i then (st.1, st.2 + 1) else (fill u (u.val - st.2) st.1, st.2))
    (h0, 0) (by simp)
    (by
      rintro u ⟨hm, inc⟩ ⟨hinc, hrows⟩
      simp only at hinc hrows
      by_cases hui : u = i
      · subst hui
        simp only [if_true]
        have h0inc : inc = 0 := by simpa using hinc
        subst h0inc
        refine ⟨by simp, fun r => ?_⟩
        rw [hrows r]
        simp
      · simp only [hui, if_false]
        have hne : u.val ≠ i.val := fun h => hui (Fin.ext h)
        refine ⟨?_, fun r => ?_⟩
        · rw [hinc]
          by_cases hlt : i.val < u.val
          · have : i.val < u.val + 1 := by omega
            simp [hlt, this]
          · have : ¬ i.val < u.val + 1 := by omega
            simp [hlt, this]
        · rw [hfill]
          unfold SqMatrix.setRow
          by_cases hr : r.val = u.val - inc
          · simp only [hr, if_true]
            have hsa : i.succAbove r = u := by
              apply Fin.ext
              rw [succAbove_val]
              by_cases hlt : i.val < u.val
              · have hinc1 : inc = 1 := by simpa [hlt] using hinc
                have : ¬ r.val < i.val := by omega
                simp only [this, if_false]
                omega
              · have hinc0 : inc = 0 := by simpa [hlt] using hinc
                have : r.val < i.val := by omega
                simp only [this, if_true]
                omega
            have hlt2 : u.val - inc + inc < u.val + 1 := by
              by_cases hlt : i.val < u.val
              · have hinc1 : inc = 1 := by simpa [hlt] using hinc
                omega
              · have hinc0 : inc = 0 := by simpa [hlt] using hinc
                omega
            simp [hlt2, hsa]
          · simp only [hr, if_false]
            rw [hrows r]
            have hiff : (r.val + inc < u.val + 1) ↔ (r.val + inc < u.val) := by
              by_cases hlt : i.val < u.val
              · have hinc1 : inc = 1 := by simpa [hlt] using hinc
                omega
              · have hinc0 : inc = 0 := by simpa [hlt] using hinc
                omega
            simp only [hiff])
  funext r
  have hr := h.2 r
  have hinc := h.1
  rw [hr]
  have : r.val + (forLoop (n + 2)
      (fun u (st : SqMatrix α (n + 1) × ℕ) =>
        if u = i then (st.1, st.2 + 1) else (fill u (u.val - st.2) st.1, st.2))
      (h0, 0)).2 < n + 2 := by
    rw [hinc]
    have := r.isLt
    split_ifs <;> omega
  simp [this]

/-- The column loop of `DeterminantHelper::calculate` copies columns `1 .. length-1` of source
row `u` to row `row` of `h_mat`. -/
theorem DeterminantHelper.detColLoop_eq {n : ℕ} (mat : SqMatrix α (n + 2)) (u : Fin (n + 2))
    (row : ℕ) (h : SqMatrix α (n + 1)) :
    forLoop (n + 1)
      (fun k h_mat => SqMatrix.set h_mat row (k.succ.val - 1) (mat u k.succ)) h
      = SqMatrix.setRow h row (fun c => mat u c.succ) := by
  have hinv := forLoop_invariant
    (fun (k : ℕ) (hm : SqMatrix α (n + 1)) => ∀ (r c : Fin (n + 1)),
      hm r c = if r.val = row ∧ c.val < k then mat u c.succ else h r c)
    (n + 1)
    (fun k h_mat => SqMatrix.set h_mat row (k.succ.val - 1) (mat u k.succ)) h
    (by intro r c; simp)
    (by
      intro k hm hk r c
      unfold SqMatrix.set Vec.set
      by_cases hr : r.val = row
      · simp only [hr, if_true, true_and]
        by_cases hc : c.val = k.succ.val - 1
        · have hck : c = k := by
            apply Fin.ext
            simpa using hc
          subst hck
          simp
        · have hck : c.val ≠ k.val := by simpa using hc
          simp only [hc, if_false]
          rw [hk r c]
          have hiff : (c.val < k.val + 1) ↔ (c.val < k.val) := by omega
          simp [hr, hiff]
      · simp only [hr, if_false, false_and]
        rw [hk r c]
        simp [hr])
  funext r c
  rw [hinv r c]
  unfold SqMatrix.setRow
  by_cases hr : r.val = row <;> simp [hr]

/-- The column loop of `SymmetricSquareMatrixInv` copies all columns but `j` of source row `u`
to row `row` of `h_mat`. -/
theorem SymmetricSquareMatrixInv.invColLoop_eq {n : ℕ} (mat : SqMatrix α (n + 2))
    (j u : Fin (n + 2)) (row : ℕ) (h : SqMatrix α (n + 1)) :
    (forLoop (n + 2) (SymmetricSquareMatrixInv.colStep mat j u row) (h, 0)).1
      = SqMatrix.setRow h row (fun c => mat u (j.succAbove c)) := by
  have hinv := forLoop_invariant
    (fun (k : ℕ) (st : SqMatrix α (n + 1) × ℕ) =>
      st.2 = (if j.val < k then 1 else 0) ∧
      ∀ (r c : Fin (n + 1)),
        st.1 r c = if r.val = row ∧ c.val + st.2 < k then mat u (j.succAbove c) else h r c)
    (n + 2) (SymmetricSquareMatrixInv.colStep mat j u row) (h, 0) (by simp)
    (by
      rintro v ⟨hm, inc⟩ ⟨hinc, hcells⟩
      simp only at hinc hcells
      unfold SymmetricSquareMatrixInv.colStep
      by_cases hvj : v = j
      · subst hvj
        simp only [if_true]
        have h0inc : inc = 0 := by simpa using hinc
        subst h0inc
        refine ⟨by simp, fun r c => ?_⟩
        rw [hcells r c]
        simp
      · simp only [hvj, if_false]
        have hne : v.val ≠ j.val := fun h => hvj (Fin.ext h)
        have hcase : (j.val < v.val ∧ inc = 1) ∨ (v.val < j.val ∧ inc = 0) := by
          by_cases hlt : j.val < v.val
          · left; exact ⟨hlt, by simpa [hlt] using hinc⟩
          · right; exact ⟨by omega, by simpa [hlt] using hinc⟩
        refine ⟨?_, fun r c => ?_⟩
        · rcases hcase with ⟨h1, h2⟩ | ⟨h1, h2⟩
          · have : j.val < v.val + 1 := by omega
            simp [h2, this]
          · have : ¬ j.val < v.val + 1 := by omega
            simp [h2, this]
        · unfold SqMatrix.set Vec.set
          by_cases hr : r.val = row
          · simp only [hr, if_true, true_and]
            by_cases hc : c.val = v.val - inc
            · have hsa : j.succAbove c = v := by
                apply Fin.ext
                rw [succAbove_val]
                rcases hcase with ⟨h1, h2⟩ | ⟨h1, h2⟩
                · have : ¬ c.val < j.val := by omega
                  simp only [this, if_false]
                  omega
                · have : c.val < j.val := by omega
                  simp only [this, if_true]
                  omega
              have hlt2 : c.val + inc < v.val + 1 := by
                rcases hcase with ⟨h1, h2⟩ | ⟨h1, h2⟩ <;> omega
              simp only [hc, if_true]
              rw [if_pos (by rw [← hc]; exact hlt2), hsa]
            · simp only [hc, if_false]
              rw [hcells r c]
              have hiff : (c.val + inc < v.val + 1) ↔ (c.val + inc < v.val) := by
                rcases hcase with ⟨h1, h2⟩ | ⟨h1, h2⟩ <;> omega
              simp [hr, hiff]
          · simp only [hr, if_false, false_and]
            rw [hcells r c]
            simp [hr])
  funext r c
  rw [(hinv.2 r c)]
  unfold SqMatrix.setRow
  have hlt : c.val + (forLoop (n + 2) (SymmetricSquareMatrixInv.colStep mat j u row) (h, 0)).2
      < n + 2 := by
    rw [hinv.1]
    have := c.isLt
    split_ifs <;> omega
  by_cases hr : r.val = row <;> simp [hr, hlt]

/-- The `u`/`v` loops of `DeterminantHelper::calculate` leave in `h_mat` the minor deleting
row `i` and column 0, whatever `h_mat` held before. -/
theorem DeterminantHelper.detRowLoop_eq_minor {n : ℕ} (mat : SqMatrix α (n + 2)) (i : Fin (n + 2))
    (h0 : SqMatrix α (n + 1)) :
    (forLoop (n + 2) (DeterminantHelper.rowStep mat i) (h0, 0)).1 = minor mat i 0 := by
  have h := rowLoop_eq i (fun u c => mat u c.succ)
    (fun u row h => forLoop (n + 1)
      (fun k h_mat => SqMatrix.set h_mat row (k.succ.val - 1) (mat u k.succ)) h)
    (fun u row h => DeterminantHelper.detColLoop_eq mat u row h) h0
  have hbody : DeterminantHelper.rowStep mat i = (fun u (st : SqMatrix α (n + 1) × ℕ) =>
        if u = i then (st.1, st.2 + 1)
        else (forLoop (n + 1)
          (fun k h_mat => SqMatrix.set h_mat (u.val - st.2) (k.succ.val - 1) (mat u k.succ))
          st.1, st.2)) := by
    funext u st
    rfl
  rw [hbody, h]
  funext r c
  simp [minor, Fin.succAbove_zero]

/-- The `u`/`v` loops of `SymmetricSquareMatrixInv` leave in `h_mat` the minor deleting row
`i` and column `j`, whatever `h_mat` held before. -/
theorem SymmetricSquareMatrixInv.invRowLoop_eq_minor {n : ℕ} (mat : SqMatrix α (n + 2))
    (i j : Fin (n + 2)) (h0 : SqMatrix α (n + 1)) :
    (forLoop (n + 2) (SymmetricSquareMatrixInv.rowStep mat i j) (h0, 0)).1 = minor mat i j := by
  have h := rowLoop_eq i (fun u c => mat u (j.succAbove c))
    (fun u row h =>
      (forLoop (n + 2) (SymmetricSquareMatrixInv.colStep mat j u row) (h, 0)).1)
    (fun u row h => SymmetricSquareMatrixInv.invColLoop_eq mat j u row h) h0
  have hbody : SymmetricSquareMatrixInv.rowStep mat i j =
      (fun u (st : SqMatrix α (n + 1) × ℕ) =>
        if u = i then (st.1, st.2 + 1)
        else ((forLoop (n + 2)
          (SymmetricSquareMatrixInv.colStep mat j u (u.val - st.2)) (st.1, 0)).1, st.2)) := by
    funext u st
    rfl
  rw [hbody, h]
  rfl

/-! ## `Determinant` is the determinant -/

/-- A loop over a pair of variables whose second component is increased by a term that does
not depend on the state accumulates the sum of the terms in that component. -/
theorem forLoop_snd_add_eq_sum [AddCommMonoid α] {β : Type u} :
    ∀ (n : ℕ) (body : Fin n → β × α → β × α) (g : Fin n → α),
      (∀ i st, (body i st).2 = st.2 + g i) →
      ∀ s : β × α, (forLoop n body s).2 = s.2 + ∑ i, g i := by
  intro n
  induction n with
  | zero => intro body g _ s; simp [forLoop_zero]
  | succ n ih =>
    intro body g hbody s
    rw [forLoop_succ, hbody, ih (fun i => body i.castSucc) (fun i => g i.castSucc)
      (fun i st => hbody i.castSucc st), Fin.sum_univ_castSucc, add_assoc]

theorem signOf_cast [Ring α] (k : ℕ) : ((signOf k : ℤ) : α) = (-1) ^ k := by
  unfold signOf
  rcases Nat.even_or_odd k with hk | hk
  · have h2 : k % 2 = 0 := Nat.even_iff.mp hk
    simp [h2, hk.neg_one_pow]
  · have h2 : k % 2 = 1 := Nat.odd_iff.mp hk
    simp [h2, hk.neg_one_pow]

/-- The base case: `DeterminantHelper<type, 1>::calculate` returns `mat[0][0]`. -/
theorem DeterminantHelper.calculate_zero [Ring α] (mat : SqMatrix α 1) :
    DeterminantHelper.calculate 0 mat = mat 0 0 := rfl

/-- The general template of `DeterminantHelper::calculate` is the expansion along column 0:
the sum over rows `i` of `sign(i) * mat[i][0]` times the determinant of the minor deleting
row `i` and column 0. -/
theorem DeterminantHelper.calculate_succ [Ring α] (n : ℕ) (mat : SqMatrix α (n + 2)) :
    DeterminantHelper.calculate (n + 1) mat
      = ∑ i : Fin (n + 2),
          ((signOf i.val : ℤ) : α) * mat i 0 * DeterminantHelper.calculate n (minor mat i 0) := by
  show (forLoop (n + 2)
      (fun i (st : SqMatrix α (n + 1) × α) =>
        ((forLoop (n + 2) (DeterminantHelper.rowStep mat i) (st.1, 0)).1,
          st.2 + ((signOf i.val : ℤ) : α) * mat i 0 * DeterminantHelper.calculate n
            (forLoop (n + 2) (DeterminantHelper.rowStep mat i) (st.1, 0)).1))
      (SqMatrix.fill 0, 0)).2 = _
  rw [forLoop_snd_add_eq_sum (n + 2) _
    (fun i => ((signOf i.val : ℤ) : α) * mat i 0 * DeterminantHelper.calculate n (minor mat i 0))
    (by
      intro i st
      simp only [DeterminantHelper.detRowLoop_eq_minor])]
  simp

/-- The value of `Determinant` is the Leibniz determinant of the matrix. -/
theorem Determinant_eq_det [CommRing α] :
    ∀ (n : ℕ) (mat : SqMatrix α (n + 1)), Determinant mat = Matrix.det (Matrix.of mat) := by
  intro n
  induction n with
  | zero =>
    intro mat
    show DeterminantHelper.calculate 0 mat = _
    rw [DeterminantHelper.calculate_zero, Matrix.det_fin_one]
    rfl
  | succ n ih =>
    intro mat
    show DeterminantHelper.calculate (n + 1) mat = _
    rw [DeterminantHelper.calculate_succ, Matrix.det_succ_column_zero]
    refine Finset.sum_congr rfl (fun i _ => ?_)
    have hrec : DeterminantHelper.calculate n (minor mat i 0)
        = Matrix.det (Matrix.of (minor mat i 0)) := ih (minor mat i 0)
    rw [hrec, signOf_cast]
    have hminor : Matrix.of (minor mat i 0)
        = (Matrix.of mat).submatrix i.succAbove Fin.succ := by
      ext r c
      simp [minor, Fin.succAbove_zero]
    rw [hminor]
    rfl

/-! ## `SymmetricSquareMatrixInv` is the adjugate over the determinant -/

theorem SqMatrix.set_apply {n : ℕ} (m : SqMatrix α n) (r c : ℕ) (x : α) (i j : Fin n) :
    SqMatrix.set m r c x i j = if i.val = r ∧ j.val = c then x else m i j := by
  unfold SqMatrix.set Vec.set
  by_cases hi : i.val = r <;> by_cases hj : j.val = c <;> simp [hi, hj]

/-- The first component of a loop over a pair evolves on its own when the body's first
component does not read the second. -/
theorem forLoop_fst {σ β : Type u} :
    ∀ (n : ℕ) (body : Fin n → σ × β → σ × β) (F : Fin n → σ → σ),
      (∀ i st, (body i st).1 = F i st.1) →
      ∀ s : σ × β, (forLoop n body s).1 = forLoop n F s.1 := by
  intro n
  induction n with
  | zero => intro body F _ s; rfl
  | succ n ih =>
    intro body F hbody s
    rw [forLoop_succ, forLoop_succ, hbody,
      ih (fun i => body i.castSucc) (fun i => F i.castSucc) (fun i st => hbody i.castSucc st)]

/-- A doubly nested loop that assigns `mat[i][j] = g i j` in iteration `(i, j)` builds the
matrix `g`. -/
theorem forLoop_fill2 {n : ℕ} (g : Fin n → Fin n → α) (s : SqMatrix α n) :
    forLoop n (fun i m => forLoop n (fun j m => SqMatrix.set m i.val j.val (g i j)) m) s
      = g := by
  have houter := forLoop_invariant
    (fun (k : ℕ) (m : SqMatrix α n) => ∀ r c : Fin n, r.val < k → m r c = g r c)
    n (fun i m => forLoop n (fun j m => SqMatrix.set m i.val j.val (g i j)) m) s
    (by intro r c hr; omega)
    (by
      intro i m hm
      have hinner := forLoop_invariant
        (fun (k : ℕ) (m2 : SqMatrix α n) =>
          ∀ r c : Fin n, (r.val < i.val ∨ (r.val = i.val ∧ c.val < k)) → m2 r c = g r c)
        n (fun j m => SqMatrix.set m i.val j.val (g i j)) m
        (by
          intro r c hrc
          rcases hrc with h | ⟨_, h⟩
          · exact hm r c h
          · omega)
        (by
          intro j m2 hm2 r c hrc
          simp only
          rw [SqMatrix.set_apply]
          by_cases hcell : r.val = i.val ∧ c.val = j.val
          · obtain ⟨h1, h2⟩ := hcell
            have hr : r = i := Fin.ext h1
            have hc : c = j := Fin.ext h2
            subst hr
            subst hc
            simp
          · rw [if_neg hcell]
            apply hm2
            rcases hrc with h | ⟨h1, h2⟩
            · exact Or.inl h
            · right
              refine ⟨h1, ?_⟩
              by_contra hlt
              exact hcell ⟨h1, by omega⟩)
      intro r c hr
      apply hinner
      by_cases hri : r.val < i.val
      · exact Or.inl hri
      · exact Or.inr ⟨by omega, c.isLt⟩)
  funext r c
  exact houter r c r.isLt

/-- The doubly nested fill loop next to other variables `β` that do not influence the
assigned value. -/
theorem forLoop_fill2_fst {β : Type u} {n : ℕ} (g : Fin n → Fin n → α)
    (body : Fin n → Fin n → SqMatrix α n × β → SqMatrix α n × β)
    (hbody : ∀ i j st, (body i j st).1 = SqMatrix.set st.1 i.val j.val (g i j))
    (s : SqMatrix α n × β) :
    (forLoop n (fun i st => forLoop n (fun j st => body i j st) st) s).1 = g := by
  rw [forLoop_fst n (fun i st => forLoop n (fun j st => body i j st) st)
    (fun i m => forLoop n (fun j m => SqMatrix.set m i.val j.val (g i j)) m)
    (fun i st => forLoop_fst n (fun j st => body i j st)
      (fun j m => SqMatrix.set m i.val j.val (g i j)) (fun j st => hbody i j st) st)]
  exact forLoop_fill2 g s.1

/-- The local variable `mat` of `SqMatrix::transpose` does hold the transposed matrix. -/
theorem SqMatrix.transposeLocal_apply [Zero α] {n : ℕ} (m : SqMatrix α n) (i j : Fin n) :
    SqMatrix.transposeLocal m i j = m j i := by
  unfold SqMatrix.transposeLocal
  rw [forLoop_fill2 (fun i j => m j i)]

theorem SymmetricSquareMatrixInv.cofactorStep_fst [Ring α] {n : ℕ} (mat : SqMatrix α (n + 2))
    (i j : Fin (n + 2)) (st : SqMatrix α (n + 2) × SqMatrix α (n + 1)) :
    (SymmetricSquareMatrixInv.cofactorStep mat i j st).1
      = SqMatrix.set st.1 i.val j.val
          (((signOf (i.val + j.val) : ℤ) : α) * Determinant (minor mat i j)) := by
  unfold SymmetricSquareMatrixInv.cofactorStep
  simp only [SymmetricSquareMatrixInv.invRowLoop_eq_minor]

/-- One pass of the inner exchange loop for row `i`: the cells `(i, j)` and `(j, i)` with
`i < j` are exchanged, all other cells are kept. -/
theorem SymmetricSquareMatrixInv.swapInner_eq {n : ℕ} (i : Fin (n + 2))
    (a : SqMatrix α (n + 2)) (r c : Fin (n + 2)) :
    forLoop (n + 2 - (i.val + 1))
      (fun k adj_mat => SymmetricSquareMatrixInv.swapStep i k adj_mat) a r c
      = if (r.val = i.val ∧ i.val < c.val) ∨ (c.val = i.val ∧ i.val < r.val)
        then a c r else a r c := by
  have hinv := forLoop_invariant
    (fun (m : ℕ) (b : SqMatrix α (n + 2)) => ∀ r c : Fin (n + 2),
      b r c = if (r.val = i.val ∧ i.val < c.val ∧ c.val < i.val + 1 + m)
                ∨ (c.val = i.val ∧ i.val < r.val ∧ r.val < i.val + 1 + m)
              then a c r else a r c)
    (n + 2 - (i.val + 1))
    (fun k adj_mat => SymmetricSquareMatrixInv.swapStep i k adj_mat) a
    (by
      intro r c
      have : ¬ ((r.val = i.val ∧ i.val < c.val ∧ c.val < i.val + 1 + 0)
                ∨ (c.val = i.val ∧ i.val < r.val ∧ r.val < i.val + 1 + 0)) := by omega
      rw [if_neg this])
    (by
      intro k b hb r c
      unfold SymmetricSquareMatrixInv.swapStep
      simp only [SqMatrix.set_apply]
      have hij : b i ⟨i.val + 1 + k.val, by omega⟩ = a i ⟨i.val + 1 + k.val, by omega⟩ := by
        rw [hb]
        apply if_neg
        simp only
        omega
      have hji : b ⟨i.val + 1 + k.val, by omega⟩ i = a ⟨i.val + 1 + k.val, by omega⟩ i := by
        rw [hb]
        apply if_neg
        simp only
        omega
      rw [hij, hji]
      by_cases h1 : r.val = i.val + 1 + k.val ∧ c.val = i.val
      · obtain ⟨hr, hc⟩ := h1
        have hr2 : r = ⟨i.val + 1 + k.val, by omega⟩ := Fin.ext hr
        have hc2 : c = i := Fin.ext hc
        rw [if_pos ⟨hr, hc⟩, if_pos (by right; omega)]
        exact (congrArg₂ a hc2 hr2).symm
      · rw [if_neg h1]
        by_cases h2 : r.val = i.val ∧ c.val = i.val + 1 + k.val
        · obtain ⟨hr, hc⟩ := h2
          have hr2 : r = i := Fin.ext hr
          have hc2 : c = ⟨i.val + 1 + k.val, by omega⟩ := Fin.ext hc
          rw [if_pos ⟨hr, hc⟩, if_pos (by left; omega)]
          exact (congrArg₂ a hc2 hr2).symm
        · rw [if_neg h2, hb]
          have hiff : ((r.val = i.val ∧ i.val < c.val ∧ c.val < i.val + 1 + (k.val + 1))
                ∨ (c.val = i.val ∧ i.val < r.val ∧ r.val < i.val + 1 + (k.val + 1)))
              ↔ ((r.val = i.val ∧ i.val < c.val ∧ c.val < i.val + 1 + k.val)
                ∨ (c.val = i.val ∧ i.val < r.val ∧ r.val < i.val + 1 + k.val)) := by
            omega
          simp only [hiff])
  rw [hinv r c]
  have hiff : ((r.val = i.val ∧ i.val < c.val ∧ c.val < i.val + 1 + (n + 2 - (i.val + 1)))
        ∨ (c.val = i.val ∧ i.val < r.val ∧ r.val < i.val + 1 + (n + 2 - (i.val + 1))))
      ↔ ((r.val = i.val ∧ i.val < c.val) ∨ (c.val = i.val ∧ i.val < r.val)) := by
    have := r.isLt
    have := c.isLt
    have := i.isLt
    omega
  simp only [hiff]

/-- The exchange loops of `SymmetricSquareMatrixInv` transpose `adj_mat` in place. -/
theorem SymmetricSquareMatrixInv.swapLoop_eq {n : ℕ} (a : SqMatrix α (n + 2)) :
    forLoop (n + 2)
      (fun i adj_mat =>
        forLoop (n + 2 - (i.val + 1))
          (fun k adj_mat => SymmetricSquareMatrixInv.swapStep i k adj_mat) adj_mat) a
      = fun r c => a c r := by
  have hinv := forLoop_invariant
    (fun (k : ℕ) (b : SqMatrix α (n + 2)) => ∀ r c : Fin (n + 2),
      b r c = if r.val < k ∨ c.val < k then a c r else a r c)
    (n + 2)
    (fun i adj_mat =>
      forLoop (n + 2 - (i.val + 1))
        (fun k adj_mat => SymmetricSquareMatrixInv.swapStep i k adj_mat) adj_mat) a
    (by intro r c; simp)
    (by
      intro i b hb r c
      simp only
      rw [SymmetricSquareMatrixInv.swapInner_eq]
      by_cases hsw : (r.val = i.val ∧ i.val < c.val) ∨ (c.val = i.val ∧ i.val < r.val)
      · rw [if_pos hsw, hb, if_neg (by omega), if_pos (by omega)]
      · rw [if_neg hsw, hb]
        by_cases hk : r.val < i.val ∨ c.val < i.val
        · rw [if_pos hk, if_pos (by omega)]
        · rw [if_neg hk]
          by_cases hk1 : r.val < i.val + 1 ∨ c.val < i.val + 1
          · rw [if_pos hk1]
            have hrc : r = c := by
              apply Fin.ext
              omega
            rw [hrc]
          · rw [if_neg hk1])
  funext r c
  rw [hinv r c, if_pos (Or.inl r.isLt)]

theorem Vec.divAssign_elem [Div α] {n : ℕ} (v : Vec α n) (rhs : α) (i : Fin n) :
    Vec.divAssign v rhs i = v i / rhs := by
  unfold Vec.divAssign
  rw [forLoop_update_eq (fun _ x => x / rhs)]

theorem SqMatrix.divAssign_cell [Div α] {n : ℕ} (m : SqMatrix α n) (rhs : α) (i j : Fin n) :
    SqMatrix.divAssign m rhs i j = m i j / rhs := by
  unfold SqMatrix.divAssign
  have h := forLoop_update_eq (fun (_ : Fin n) (row : Vec α n) => Vec.divAssign row rhs) m
  have h2 : forLoop n
      (fun i values => SqMatrix.setRow values i.val (Vec.divAssign (values i) rhs)) m
      = fun i => Vec.divAssign (m i) rhs := h
  rw [h2]
  exact Vec.divAssign_elem _ _ _

/-- The value of `SymmetricSquareMatrixInv`, cell by cell: the cofactor of the transposed
position divided by the determinant. No hypothesis on the determinant is used. -/
theorem SymmetricSquareMatrixInv_apply [Ring α] [Div α] {n : ℕ} (mat : SqMatrix α (n + 2))
    (i j : Fin (n + 2)) :
    SymmetricSquareMatrixInv mat i j
      = ((signOf (j.val + i.val) : ℤ) : α) * Determinant (minor mat j i) / Determinant mat := by
  unfold SymmetricSquareMatrixInv
  rw [SqMatrix.divAssign_cell, SymmetricSquareMatrixInv.swapLoop_eq,
    forLoop_fill2_fst
      (fun i j => ((signOf (i.val + j.val) : ℤ) : α) * Determinant (minor mat i j))
      (fun i j st => SymmetricSquareMatrixInv.cofactorStep mat i j st)
      (fun i j st => SymmetricSquareMatrixInv.cofactorStep_fst mat i j st)]

/-- Over a field `SymmetricSquareMatrixInv` is the matrix inverse `adjugate / det`. (The
equation is used below only where the determinant is not zero; at a zero determinant both
sides divide by zero, which a Lean field evaluates to zero.) -/
theorem SymmetricSquareMatrixInv_eq_inv [Field α] {n : ℕ} (mat : SqMatrix α (n + 2)) :
    Matrix.of (SymmetricSquareMatrixInv mat) = (Matrix.of mat)⁻¹ := by
  ext i j
  rw [Matrix.inv_def, Matrix.smul_apply, Matrix.adjugate_fin_succ_eq_det_submatrix,
    Matrix.of_apply, SymmetricSquareMatrixInv_apply, signOf_cast, Determinant_eq_det,
    Determinant_eq_det, Ring.inverse_eq_inv, smul_eq_mul]
  have hminor : Matrix.of (minor mat j i)
      = (Matrix.of mat).submatrix j.succAbove i.succAbove := by
    ext r c
    rfl
  rw [hminor, div_eq_mul_inv, mul_comm]

/-! ## Products and inverses as matrices -/

theorem SqMatrix.naiveDot_eq_mul [CommRing α] {n : ℕ} (a b : SqMatrix α n) :
    Matrix.of (SqMatrix.naiveDot a b) = Matrix.of a * Matrix.of b := by
  ext i k
  simp [SqMatrix.naiveDot, Matrix.mul_apply]

theorem SqMatrix.identity_eq_one [CommRing α] {n : ℕ} :
    Matrix.of (SqMatrix.identity : SqMatrix α n) = 1 := by
  ext i k
  simp [SqMatrix.identity, Matrix.one_apply]

/-- Where the determinant is not zero, the matrix times the value of
`SymmetricSquareMatrixInv` is the identity. -/
theorem naiveDot_SymmetricSquareMatrixInv [Field α] {n : ℕ} (mat : SqMatrix α (n + 2))
    (hdet : Determinant mat ≠ 0) :
    SqMatrix.naiveDot mat (SymmetricSquareMatrixInv mat) = SqMatrix.identity := by
  have hunit : IsUnit (Matrix.det (Matrix.of mat)) := by
    rw [← Determinant_eq_det]
    exact isUnit_iff_ne_zero.mpr hdet
  have h : Matrix.of (SqMatrix.naiveDot mat (SymmetricSquareMatrixInv mat))
      = Matrix.of (SqMatrix.identity : SqMatrix α (n + 2)) := by
    rw [SqMatrix.naiveDot_eq_mul, SymmetricSquareMatrixInv_eq_inv, SqMatrix.identity_eq_one,
      Matrix.mul_nonsing_inv _ hunit]
  exact Matrix.of.injective h

/-- Where the determinant is not zero, applying `SymmetricSquareMatrixInv` twice gives the
matrix back. -/
theorem SymmetricSquareMatrixInv_involutive [Field α] {n : ℕ} (mat : SqMatrix α (n + 2))
    (hdet : Determinant mat ≠ 0) :
    SymmetricSquareMatrixInv (SymmetricSquareMatrixInv mat) = mat := by
  have hunit : IsUnit (Matrix.det (Matrix.of mat)) := by
    rw [← Determinant_eq_det]
    exact isUnit_iff_ne_zero.mpr hdet
  have h : Matrix.of (SymmetricSquareMatrixInv (SymmetricSquareMatrixInv mat))
      = Matrix.of mat := by
    rw [SymmetricSquareMatrixInv_eq_inv]
    have h1 : Matrix.of (SymmetricSquareMatrixInv mat) = (Matrix.of mat)⁻¹ :=
      SymmetricSquareMatrixInv_eq_inv mat
    rw [h1, Matrix.nonsing_inv_nonsing_inv _ hunit]
  exact Matrix.of.injective h

/-- A symmetric positive-definite matrix has a non-zero determinant. -/
theorem IsSymmPosDef.det_ne_zero [LinearOrderedField α] {n : ℕ} {mat : SqMatrix α (n + 1)}
    (h : IsSymmPosDef mat) : Determinant mat ≠ 0 := by
  intro hdet
  have hdet2 : Matrix.det (Matrix.of mat) = 0 := by
    rw [← Determinant_eq_det]
    exact hdet
  obtain ⟨v, hv, hMv⟩ := Matrix.exists_mulVec_eq_zero_iff.mpr hdet2
  have hpos := h.2 v hv
  have hzero : ∑ i, ∑ j, v i * mat i j * v j = 0 := by
    have hrow : ∀ i, ∑ j, v i * mat i j * v j = v i * (Matrix.mulVec (Matrix.of mat) v) i := by
      intro i
      simp [Matrix.mulVec, Matrix.dotProduct, Finset.mul_sum, mul_assoc]
    simp [hrow, hMv]
  rw [hzero] at hpos
  exact lt_irrefl _ hpos

/-- The matrix `exampleSPD` is symmetric positive-definite: its quadratic form is
`x0² + x1² + (x0 + x1)² + x2² + x3²`. -/
theorem exampleSPD_isSymmPosDef : IsSymmPosDef exampleSPD := by
  constructor
  · intro i j
    fin_cases i <;> fin_cases j <;> rfl
  · intro x hx
    have hne : x 0 ≠ 0 ∨ x 1 ≠ 0 ∨ x 2 ≠ 0 ∨ x 3 ≠ 0 := by
      by_contra hcon
      push_neg at hcon
      apply hx
      funext i
      fin_cases i
      · exact hcon.1
      · exact hcon.2.1
      · exact hcon.2.2.1
      · exact hcon.2.2.2
    have hsum : ∑ i, ∑ j, x i * exampleSPD i j * x j
        = x 0 ^ 2 + x 1 ^ 2 + (x 0 + x 1) ^ 2 + x 2 ^ 2 + x 3 ^ 2 := by
      simp only [Fin.sum_univ_four]
      simp [exampleSPD, Matrix.vecHead, Matrix.vecTail]
      ring
    rw [hsum]
    have h0 := sq_nonneg (x 0)
    have h1 := sq_nonneg (x 1)
    have h2 := sq_nonneg (x 2)
    have h3 := sq_nonneg (x 3)
    have h01 := sq_nonneg (x 0 + x 1)
    rcases hne with h | h | h | h
    · have := pow_pos (abs_pos.mpr h) 2
      rw [sq_abs] at this
      linarith
    · have := pow_pos (abs_pos.mpr h) 2
      rw [sq_abs] at this
      linarith
    · have := pow_pos (abs_pos.mpr h) 2
      rw [sq_abs] at this
      linarith
    · have := pow_pos (abs_pos.mpr h) 2
      rw [sq_abs] at this
      linarith

/-! ## The doubling constructor -/

/-- The doubling constructor, for any destination length: source element `i` is rectified into
positions `i` and `i + size`, both of which lie inside the destination. -/
theorem Vec.crelu_apply [LinearOrder α] [Zero α] [Neg α] {length size : ℕ}
    (h : size = length / 2) (garbage : Vec α length) (x : Vec α size) (i : Fin size) :
    Vec.crelu h garbage x ⟨i.val, by omega⟩ = max (x i) 0 ∧
    Vec.crelu h garbage x ⟨i.val + size, by omega⟩ = max (-x i) 0 := by
  have hinv := forLoop_invariant
    (fun (k : ℕ) (values : Vec α length) => ∀ j : Fin size, j.val < k →
      values ⟨j.val, by omega⟩ = max (x j) 0 ∧
      values ⟨j.val + size, by omega⟩ = max (-x j) 0)
    size
    (fun i values =>
      let values := Vec.set values i.val (max (x i) 0)
      Vec.set values (i.val + size) (max (-x i) 0)) garbage
    (by intro j hj; omega)
    (by
      intro k values hvalues j hj
      simp only [Vec.set]
      by_cases hjk : j.val = k.val
      · have hjk2 : j = k := Fin.ext hjk
        subst hjk2
        have hne : ¬ (j.val = j.val + size) := by omega
        simp [hne]
      · have hlt : j.val < k.val := by omega
        have h1 : ¬ (j.val = k.val + size) := by omega
        have h2 : ¬ (j.val + size = k.val) := by omega
        have h3 : ¬ (j.val + size = k.val + size) := by omega
        simp only [h1, h2, h3, hjk, if_false]
        exact hvalues j hlt)
  exact hinv i i.isLt

/-! ## The claims -/

/-- C1: for every `N ≥ 1` (here `N = n + 1`) and every `N×N` matrix over exact arithmetic,
`Determinant` (expansion along column 0, sign -1 for odd rows, base case `N = 1`) equals the
Leibniz determinant: the sum over all permutations `σ` of `sign σ · Π_i mat[σ i][i]`. -/
theorem Determinant_eq_leibniz [CommRing α] (n : ℕ) (mat : SqMatrix α (n + 1)) :
    Determinant mat
      = ∑ σ : Equiv.Perm (Fin (n + 1)),
          ((Equiv.Perm.sign σ : ℤ) : α) * ∏ i, mat (σ i) i := by
  rw [Determinant_eq_det, Matrix.det_apply']
  rfl

/-- C2: for every symmetric positive-definite 4×4 matrix over exact arithmetic, the
mathematical matrix product of the matrix with `SymmetricSquareMatrixInv` of it is the
identity matrix. -/
theorem naiveDot_SymmetricSquareMatrixInv_of_isSymmPosDef [LinearOrderedField α]
    (mat : SqMatrix α 4) (h : IsSymmPosDef mat) :
    SqMatrix.naiveDot mat (SymmetricSquareMatrixInv mat) = SqMatrix.identity :=
  naiveDot_SymmetricSquareMatrixInv mat h.det_ne_zero

/-- C2 at the symmetric positive-definite matrix `exampleSPD`. -/
theorem naiveDot_SymmetricSquareMatrixInv_of_isSymmPosDef_witness :
    IsSymmPosDef exampleSPD ∧
    SqMatrix.naiveDot exampleSPD (SymmetricSquareMatrixInv exampleSPD) = SqMatrix.identity :=
  ⟨exampleSPD_isSymmPosDef,
    naiveDot_SymmetricSquareMatrixInv_of_isSymmPosDef exampleSPD exampleSPD_isSymmPosDef⟩

/-- C3: for every symmetric positive-definite 4×4 matrix over exact arithmetic, applying
`SymmetricSquareMatrixInv` twice returns the matrix, element for element. -/
theorem SymmetricSquareMatrixInv_twice_of_isSymmPosDef [LinearOrderedField α]
    (mat : SqMatrix α 4) (h : IsSymmPosDef mat) :
    SymmetricSquareMatrixInv (SymmetricSquareMatrixInv mat) = mat :=
  SymmetricSquareMatrixInv_involutive mat h.det_ne_zero

/-- C3 at the symmetric positive-definite matrix `exampleSPD`. -/
theorem SymmetricSquareMatrixInv_twice_of_isSymmPosDef_witness :
    IsSymmPosDef exampleSPD ∧
    SymmetricSquareMatrixInv (SymmetricSquareMatrixInv exampleSPD) = exampleSPD :=
  ⟨exampleSPD_isSymmPosDef,
    SymmetricSquareMatrixInv_twice_of_isSymmPosDef exampleSPD exampleSPD_isSymmPosDef⟩

/-- C4: for every `N ≥ 2` (here `N = n + 2`) and `N×N` matrix with non-zero `Determinant`,
element `(i, j)` of `SymmetricSquareMatrixInv` is
`(-1)^(i+j) · Determinant(minor deleting row j and column i) / Determinant(mat)`: the adjugate
divided by the determinant. -/
theorem SymmetricSquareMatrixInv_eq_adjugate_div [Field α] {n : ℕ} (mat : SqMatrix α (n + 2))
    (_hdet : Determinant mat ≠ 0) (i j : Fin (n + 2)) :
    SymmetricSquareMatrixInv mat i j
      = (-1) ^ (i.val + j.val) * Determinant (minor mat j i) / Determinant mat := by
  rw [SymmetricSquareMatrixInv_apply, signOf_cast, Nat.add_comm]

/-- The determinant of `[[2,0],[0,3]]` as the code computes it. -/
theorem exampleDiag_det : Determinant exampleDiag = 6 := by
  rw [Determinant_eq_det, Matrix.det_fin_two]
  simp [exampleDiag]
  norm_num

/-- C4, the concrete scenario: `[[2,0],[0,3]]` has the inverse `[[1/2,0],[0,1/3]]`. -/
theorem SymmetricSquareMatrixInv_eq_adjugate_div_witness :
    Determinant exampleDiag ≠ 0 ∧
    SymmetricSquareMatrixInv exampleDiag = ![![1 / 2, 0], ![0, 1 / 3]] := by
  have hdet : Determinant exampleDiag ≠ 0 := by
    rw [exampleDiag_det]
    norm_num
  refine ⟨hdet, ?_⟩
  funext i j
  rw [SymmetricSquareMatrixInv_eq_adjugate_div exampleDiag hdet i j, exampleDiag_det]
  fin_cases i <;> fin_cases j <;>
    simp [Determinant, DeterminantHelper.calculate, minor, exampleDiag, Fin.succAbove] <;>
    norm_num

/-- C5 (as the code has it): `SymmetricSquareMatrixInv` makes no singularity check. When
`Determinant(mat)` is zero it returns the ordinary matrix whose element `(i, j)` is the
transposed cofactor divided by zero with the element type's own division, whatever that
division yields; no separate error state exists. -/
theorem SymmetricSquareMatrixInv_of_det_eq_zero [Ring α] [Div α] {n : ℕ}
    (mat : SqMatrix α (n + 2)) (hdet : Determinant mat = 0) (i j : Fin (n + 2)) :
    SymmetricSquareMatrixInv mat i j
      = ((signOf (j.val + i.val) : ℤ) : α) * Determinant (minor mat j i) / 0 := by
  rw [SymmetricSquareMatrixInv_apply, hdet]

/-- The determinant of `[[1,2],[2,4]]` as the code computes it. -/
theorem exampleSingular_det : Determinant exampleSingular = 0 := by
  rw [Determinant_eq_det, Matrix.det_fin_two]
  simp [exampleSingular]
  norm_num

/-- C5 (as the code has it) at the singular matrix `[[1,2],[2,4]]`, element `(0, 1)`. -/
theorem SymmetricSquareMatrixInv_of_det_eq_zero_witness :
    Determinant exampleSingular = 0 ∧
    SymmetricSquareMatrixInv exampleSingular 0 1
      = ((signOf (1 + 0) : ℤ) : ℚ) * Determinant (minor exampleSingular 1 0) / 0 :=
  ⟨exampleSingular_det,
    SymmetricSquareMatrixInv_of_det_eq_zero exampleSingular exampleSingular_det 0 1⟩

/-- C5, the claim as stated fails: `[[1,2],[2,4]]` has `Determinant` zero, and
`SymmetricSquareMatrixInv` returns for it the ordinary matrix made of the adjugate
`[[4,-2],[-2,1]]` with every element divided by that zero determinant. -/
theorem SymmetricSquareMatrixInv_singular_returns_matrix :
    Determinant exampleSingular = 0 ∧
    SymmetricSquareMatrixInv exampleSingular
      = fun i j => (![![4, -2], ![-2, 1]] : SqMatrix ℚ 2) i j / Determinant exampleSingular := by
  refine ⟨exampleSingular_det, ?_⟩
  funext i j
  rw [SymmetricSquareMatrixInv_apply]
  fin_cases i <;> fin_cases j <;>
    simp [Determinant, DeterminantHelper.calculate, minor, exampleSingular, Fin.succAbove,
      signOf]

/-- C6, the code at `[[1,2],[3,4]]`: `SqMatrix::transpose` returns its receiver, so element
`(0, 1)` of the result is `2`, not the `3` found at `(1, 0)` of the original; the local `mat`
that the loops fill does hold `3` there. -/
theorem SqMatrix.transpose_exampleA :
    SqMatrix.transpose exampleA = exampleA ∧
    SqMatrix.transpose exampleA 0 1 = 2 ∧ exampleA 1 0 = 3 ∧
    SqMatrix.transposeLocal exampleA 0 1 = 3 := by
  refine ⟨rfl, rfl, rfl, ?_⟩
  rw [SqMatrix.transposeLocal_apply]
  rfl

/-- C7, the code at `A = [[1,2],[3,4]]`, `B = [[0,1],[0,0]]`: `A.dot(B)` is
`[[2,4],[0,0]]`, the naive triple-loop product is `[[0,1],[0,3]]`. -/
theorem SqMatrix.dot_exampleA_exampleB :
    SqMatrix.dot exampleA exampleB = ![![2, 4], ![0, 0]] ∧
    SqMatrix.naiveDot exampleA exampleB = ![![0, 1], ![0, 3]] := by
  constructor
  · funext i k
    rw [SqMatrix.dot_apply]
    fin_cases i <;> fin_cases k <;> simp [Fin.sum_univ_two, exampleA, exampleB]
  · funext i k
    fin_cases i <;> fin_cases k <;>
      simp [SqMatrix.naiveDot, Fin.sum_univ_two, exampleA, exampleB]

/-- C8: for every `N×N` matrix and length-`N` vector, element `i` of the matrix-vector product
`M.dot(v)` is the dot product of row `i` with `v`: `Σ_j M[i][j] · v[j]`; the result has
length `N`. -/
theorem SqMatrix.dotVec_eq_row_dot [Semiring α] {n : ℕ} (m : SqMatrix α n) (v : Vec α n)
    (i : Fin n) : SqMatrix.dotVec m v i = ∑ j, m i j * v j :=
  SqMatrix.dotVec_apply m v i

/-- C9: for every source vector `x` of length `n`, the doubling constructor builds a vector of
length `2n` whose element `i` is `max(x[i], 0)` and whose element `n + i` is
`max(-x[i], 0)`, whatever the storage held before. -/
theorem Vec.crelu_double [LinearOrder α] [Zero α] [Neg α] (n : ℕ) (garbage : Vec α (2 * n))
    (x : Vec α n) (i : Fin n) :
    Vec.crelu (by omega : n = 2 * n / 2) garbage x ⟨i.val, by omega⟩ = max (x i) 0 ∧
    Vec.crelu (by omega : n = 2 * n / 2) garbage x ⟨n + i.val, by omega⟩ = max (-x i) 0 := by
  have h := Vec.crelu_apply (by omega : n = 2 * n / 2) garbage x i
  refine ⟨h.1, ?_⟩
  have hidx : (⟨n + i.val, by omega⟩ : Fin (2 * n)) = ⟨i.val + n, by omega⟩ :=
    Fin.ext (Nat.add_comm _ _)
  rw [hidx]
  exact h.2

/-- C9, the concrete scenario: `x = (-1, 3)` yields `(0, 3, 1, 0)`. -/
theorem Vec.crelu_double_example :
    Vec.crelu (by decide : 2 = 2 * 2 / 2) (fun _ => 7) ![(-1 : ℤ), 3] = ![0, 3, 1, 0] := by
  have h0 := Vec.crelu_double 2 (fun _ => 7) ![(-1 : ℤ), 3] 0
  have h1 := Vec.crelu_double 2 (fun _ => 7) ![(-1 : ℤ), 3] 1
  funext k
  fin_cases k
  · exact h0.1.trans (by decide)
  · exact h1.1.trans (by decide)
  · exact h0.2.trans (by decide)
  · exact h1.2.trans (by decide)

/-- C10: for every `N ≥ 1` (here `N = n + 1`) and every `N×N` matrix whose off-diagonal
entries are all zero, `Determinant` returns the product of the diagonal entries. -/
theorem Determinant_of_diagonal [CommRing α] {n : ℕ} (mat : SqMatrix α (n + 1))
    (hdiag : ∀ i j, i ≠ j → mat i j = 0) : Determinant mat = ∏ i, mat i i := by
  rw [Determinant_eq_det]
  have h : Matrix.of mat = Matrix.diagonal (fun i => mat i i) := by
    ext i j
    by_cases hij : i = j
    · subst hij
      simp
    · simp [Matrix.diagonal_apply, hij, hdiag i j hij]
  rw [h, Matrix.det_diagonal]

/-- C10, the concrete scenario: `[[2,0],[0,3]]` has determinant `6`. -/
theorem Determinant_of_diagonal_witness :
    (∀ i j, i ≠ j → exampleDiag i j = 0) ∧ Determinant exampleDiag = 6 := by
  have hdiag : ∀ i j, i ≠ j → exampleDiag i j = 0 := by
    intro i j
    fin_cases i <;> fin_cases j <;> simp [exampleDiag]
  refine ⟨hdiag, ?_⟩
  rw [Determinant_of_diagonal exampleDiag hdiag]
  simp [Fin.prod_univ_two, exampleDiag]
  norm_num

/-! ## Element-wise operators and activations -/

theorem Vec.addAssign_elem [Add α] {n : ℕ} (v rhs : Vec α n) (i : Fin n) :
    Vec.addAssign v rhs i = v i + rhs i := by
  unfold Vec.addAssign
  rw [forLoop_update_eq (fun i x => x + rhs i)]

theorem Vec.subAssign_elem [Sub α] {n : ℕ} (v rhs : Vec α n) (i : Fin n) :
    Vec.subAssign v rhs i = v i - rhs i := by
  unfold Vec.subAssign
  rw [forLoop_update_eq (fun i x => x - rhs i)]

theorem Vec.mulAssign_elem [Mul α] {n : ℕ} (v rhs : Vec α n) (i : Fin n) :
    Vec.mulAssign v rhs i = v i * rhs i := by
  unfold Vec.mulAssign
  rw [forLoop_update_eq (fun i x => x * rhs i)]

theorem Vec.relu_elem [LinearOrder α] [Zero α] {n : ℕ} (v : Vec α n) (i : Fin n) :
    Vec.relu v i = max (v i) 0 := by
  unfold Vec.relu
  rw [forLoop_update_eq (fun _ x => max x 0)]

theorem Vec.ns_prelu_elem [LinearOrder α] [Mul α] {n : ℕ} (v alpha : Vec α n) (i : Fin n) :
    Vec.ns_prelu v alpha i = max (v i) (v i * alpha i) := by
  unfold Vec.ns_prelu
  rw [forLoop_update_eq (fun i x => max x (x * alpha i))]

theorem Vec.FMAScalar_elem [Add α] [Mul α] {n : ℕ} (v a : Vec α n) (b : α) (i : Fin n) :
    Vec.FMAScalar v a b i = v i + a i * b := by
  unfold Vec.FMAScalar
  rw [forLoop_update_eq (fun i x => x + a i * b)]

theorem Vec.FMA_elem [Add α] [Mul α] {n : ℕ} (v a b : Vec α n) (i : Fin n) :
    Vec.FMA v a b i = v i + a i * b i := by
  unfold Vec.FMA
  rw [forLoop_update_eq (fun i x => x + a i * b i)]

/-- The comparison loop of `operator==` returns `true` exactly when all elements agree. -/
theorem Vec.eq_eq_true_iff [DecidableEq α] {n : ℕ} (a b : Vec α n) :
    Vec.eq a b = true ↔ ∀ i, a i = b i := by
  have h := forLoop_invariant
    (fun (k : ℕ) (res : Bool) => res = true ↔ ∀ i : Fin n, i.val < k → a i = b i)
    n (fun i res => res && decide (a i = b i)) true
    (by simp)
    (by
      intro i res hres
      simp only [Bool.and_eq_true, decide_eq_true_eq, hres]
      constructor
      · rintro ⟨h1, h2⟩ j hj
        by_cases hji : j.val = i.val
        · have : j = i := Fin.ext hji
          rw [this]
          exact h2
        · exact h1 j (by omega)
      · intro hall
        exact ⟨fun j hj => hall j (by omega), hall i (by omega)⟩)
  unfold Vec.eq
  refine Iff.trans h ?_
  exact ⟨fun hall i => hall i i.isLt, fun hall i _ => hall i⟩

/-- With `alpha ≤ 1` the maximum taken by `ns_prelu` is the parametric ReLU. -/
theorem max_mul_eq_prelu [LinearOrderedCommRing α] (alpha x : α) (halpha : alpha ≤ 1) :
    max x (x * alpha) = prelu alpha x := by
  unfold prelu
  by_cases hx : 0 ≤ x
  · rw [if_pos hx]
    apply max_eq_left
    calc x * alpha ≤ x * 1 := mul_le_mul_of_nonneg_left halpha hx
      _ = x := mul_one x
  · rw [if_neg hx]
    have hx2 : x ≤ 0 := le_of_lt (not_le.mp hx)
    rw [mul_comm alpha x]
    apply max_eq_right
    calc x = x * 1 := (mul_one x).symm
      _ ≤ x * alpha := mul_le_mul_of_nonpos_left halpha hx2

/-! ## Claims on the generic vector -/

/-- C12: for all equal-length vectors `a` and `b` over an additive group (exact arithmetic, or
integers with wrap-around such as `ZMod (2^32)`), `(a + b) - b` built from the non-mutating
operators equals `a` element for element, `operator==` reports it, and evaluating the
expression leaves `a` and `b` as they were. -/
theorem add_sub_cancel_operators [DecidableEq α] [AddGroup α] {n : ℕ} (a b : Vec α n) :
    (∀ i, Vec.sub (Vec.add a b) b i = a i) ∧ evalAddSubEq a b = (a, b, true) := by
  have helem : ∀ i, Vec.sub (Vec.add a b) b i = a i := by
    intro i
    show Vec.subAssign (Vec.addAssign a b) b i = a i
    rw [Vec.subAssign_elem, Vec.addAssign_elem, add_sub_cancel_right]
  refine ⟨helem, ?_⟩
  unfold evalAddSubEq
  simp only [(Vec.eq_eq_true_iff _ _).mpr helem]

/-- C12 on 32-bit wrap-around integers: `a = (4294967295, 7)`, `b = (1, 4294967295)`, where
both additions overflow. -/
theorem add_sub_cancel_operators_wrap :
    evalAddSubEq (![4294967295, 7] : Vec (ZMod (2 ^ 32)) 2) ![1, 4294967295]
      = (![4294967295, 7], ![1, 4294967295], true) :=
  (add_sub_cancel_operators (![4294967295, 7] : Vec (ZMod (2 ^ 32)) 2) ![1, 4294967295]).2

/-- C13: `relu()` leaves `max(old v[i], 0)` at every index of the receiver, which is the
vector it returns, and applying it twice equals applying it once. -/
theorem relu_spec [LinearOrder α] [Zero α] {n : ℕ} (v : Vec α n) :
    (∀ i, Vec.relu v i = max (v i) 0) ∧ Vec.relu (Vec.relu v) = Vec.relu v := by
  refine ⟨fun i => Vec.relu_elem v i, ?_⟩
  funext i
  rw [Vec.relu_elem, Vec.relu_elem, max_assoc, max_self]

/-- C18: for every vector `x` and every `alpha` of the same length with each
`alpha[i] ≤ 1` (in particular each `alpha[i]` in `[0,1]`), `ns_prelu` leaves
`max(x[i], x[i]·alpha[i])` at index `i`, which is the parametric ReLU: `x[i]` for
`x[i] ≥ 0` and `alpha[i]·x[i]` for `x[i] < 0`; the `std::array` overload gives the same
vector. -/
theorem ns_prelu_spec [LinearOrderedCommRing α] {n : ℕ} (x alpha : Vec α n)
    (halpha : ∀ i, alpha i ≤ 1) :
    (∀ i, Vec.ns_prelu x alpha i = max (x i) (x i * alpha i)) ∧
    (∀ i, Vec.ns_prelu x alpha i = prelu (alpha i) (x i)) ∧
    Vec.ns_prelu_array x alpha = Vec.ns_prelu x alpha := by
  refine ⟨fun i => Vec.ns_prelu_elem x alpha i, fun i => ?_, rfl⟩
  rw [Vec.ns_prelu_elem, max_mul_eq_prelu _ _ (halpha i)]

/-- C18 at `x = (-4, 6)`, `alpha = (1/2, 1/4)`: the result is `(-2, 6)`. -/
theorem ns_prelu_spec_witness :
    (∀ i, (![1 / 2, 1 / 4] : Vec ℚ 2) i ≤ 1) ∧
    Vec.ns_prelu (![-4, 6] : Vec ℚ 2) ![1 / 2, 1 / 4] = ![-2, 6] := by
  have halpha : ∀ i, (![1 / 2, 1 / 4] : Vec ℚ 2) i ≤ 1 := by
    intro i
    fin_cases i <;> norm_num
  refine ⟨halpha, ?_⟩
  funext i
  rw [(ns_prelu_spec (![-4, 6] : Vec ℚ 2) ![1 / 2, 1 / 4] halpha).2.1 i]
  fin_cases i <;> simp [prelu]
  norm_num

/-- C19 (as the code has it): for every `alpha > 1` there is an input, `x = 1`, at which
`ns_prelu` differs from the parametric ReLU; for every `alpha < 0` (as for every
`alpha ≤ 1`) `ns_prelu` agrees with the parametric ReLU at every input. -/
theorem ns_prelu_outside_unit_interval [LinearOrderedCommRing α] (alpha : α) :
    (1 < alpha → Vec.ns_prelu (![1] : Vec α 1) ![alpha] 0 ≠ prelu alpha 1) ∧
    (alpha < 0 → ∀ x : α, Vec.ns_prelu (![x] : Vec α 1) ![alpha] 0 = prelu alpha x) := by
  constructor
  · intro h
    rw [Vec.ns_prelu_elem]
    have hp : prelu alpha (1 : α) = 1 := by
      unfold prelu
      rw [if_pos zero_le_one]
    rw [hp]
    simp only [Matrix.cons_val_zero, one_mul]
    rw [max_eq_right (le_of_lt h)]
    exact ne_of_gt h
  · intro h x
    rw [Vec.ns_prelu_elem]
    simp only [Matrix.cons_val_zero]
    exact max_mul_eq_prelu alpha x (le_trans (le_of_lt h) zero_le_one)

/-- C19 at `alpha = 2` and at `alpha = -1`. -/
theorem ns_prelu_outside_unit_interval_witness :
    ((1 : ℚ) < 2 ∧ Vec.ns_prelu (![1] : Vec ℚ 1) ![2] 0 ≠ prelu 2 1) ∧
    ((-1 : ℚ) < 0 ∧ ∀ x : ℚ, Vec.ns_prelu (![x] : Vec ℚ 1) ![-1] 0 = prelu (-1) x) :=
  ⟨⟨by norm_num, (ns_prelu_outside_unit_interval (2 : ℚ)).1 (by norm_num)⟩,
   ⟨by norm_num, (ns_prelu_outside_unit_interval (-1 : ℚ)).2 (by norm_num)⟩⟩

/-- C19, the claim as stated fails: `alpha = -1` lies outside `[0,1]`, yet `ns_prelu` with it
equals the parametric ReLU at every input `x`, so no input shows a wrong branch. -/
theorem ns_prelu_negative_alpha_agrees :
    (-1 : ℚ) < 0 ∧ ¬ ∃ x : ℚ, Vec.ns_prelu (![x] : Vec ℚ 1) ![-1] 0 ≠ prelu (-1) x := by
  refine ⟨by norm_num, ?_⟩
  rintro ⟨x, hx⟩
  apply hx
  rw [Vec.ns_prelu_elem]
  simp only [Matrix.cons_val_zero]
  exact max_mul_eq_prelu (-1) x (by norm_num)

/-! ## SIMD loops -/

theorem sizeSub_of_le {a b : ℕ} (hb : b ≤ a) (ha : a < 2 ^ 64) : sizeSub a b = a - b := by
  unfold sizeSub
  have h1 : b % 2 ^ 64 = b := Nat.mod_eq_of_lt (by omega)
  rw [h1]
  omega

theorem sizeAdd_of_lt {a b : ℕ} (h : a + b < 2 ^ 64) : sizeAdd a b = a + b := by
  unfold sizeAdd
  exact Nat.mod_eq_of_lt h

theorem simdLoop_succ {σ : Type v} (w length : ℕ) (body : ℕ → σ → Except Fault σ)
    (fuel i : ℕ) (s : σ) :
    simdLoop w length body (fuel + 1) i s =
      if i ≤ sizeSub length w then
        match body i s with
        | Except.ok t => simdLoop w length body fuel (sizeAdd i w) t
        | Except.error e => Except.error e
      else Except.ok s := rfl

/-- An element-wise SIMD loop over an array of length `w * m + t` with `m ≥ 1` whole blocks
and `t < w` trailing elements: started at block `j` with enough fuel for the remaining
blocks, it applies `F` to every element from index `w * j` up to the end of the last whole
block, leaves the trailing elements as they are, and stops. -/
theorem simdLoop_blockMap {length : ℕ} (w m t : ℕ) (ht : t < w) (hm : 0 < m)
    (hlen : length = w * m + t) (hsize : length < 2 ^ 64) (F : Fin length → α → α)
    (body : ℕ → Vec α length → Except Fault (Vec α length))
    (hbody : ∀ i values, i + w ≤ length → body i values = Except.ok (blockMap w F i values)) :
    ∀ (d j : ℕ), j + d = m → ∀ (fuel : ℕ), d < fuel → ∀ values : Vec α length,
      simdLoop w length body fuel (w * j) values
        = Except.ok (fun k => if w * j ≤ k.val ∧ k.val < w * m then F k (values k)
            else values k) := by
  have hwm : w ≤ w * m := Nat.le_mul_of_pos_right w hm
  have hbound : sizeSub length w = w * m + t - w := by
    rw [hlen]
    exact sizeSub_of_le (by omega) (by omega)
  intro d
  induction d with
  | zero =>
    intro j hj fuel hfuel values
    obtain ⟨f, rfl⟩ : ∃ f, fuel = f + 1 := ⟨fuel - 1, by omega⟩
    have hjm : j = m := by omega
    subst hjm
    rw [simdLoop_succ, hbound, if_neg (by omega)]
    congr 1
    funext k
    rw [if_neg (by omega)]
  | succ d ih =>
    intro j hj fuel hfuel values
    obtain ⟨f, rfl⟩ : ∃ f, fuel = f + 1 := ⟨fuel - 1, by omega⟩
    have hj1 : w * (j + 1) ≤ w * m := Nat.mul_le_mul_left w (by omega)
    have hsucc : w * (j + 1) = w * j + w := Nat.mul_succ w j
    rw [simdLoop_succ, hbound, if_pos (by omega), hbody (w * j) values (by omega)]
    simp only
    rw [sizeAdd_of_lt (by omega), ← hsucc, ih (j + 1) (by omega) f (by omega)]
    congr 1
    funext k
    unfold blockMap
    by_cases h1 : w * (j + 1) ≤ k.val ∧ k.val < w * m
    · rw [if_pos h1, if_neg (by omega), if_pos (by omega)]
    · rw [if_neg h1]
      by_cases h2 : w * j ≤ k.val ∧ k.val < w * m
      · rw [if_pos ⟨h2.1, by omega⟩, if_pos h2]
      · rw [if_neg (by omega), if_neg h2]

/-- An element-wise SIMD loop over an array of length `w * m + t` (`m ≥ 1`, `t < w`), run from
index 0 with enough fuel, applies `F` to the elements of the whole blocks only. -/
theorem simdLoop_map_blocks {length : ℕ} (w m t : ℕ) (ht : t < w) (hm : 0 < m)
    (hlen : length = w * m + t) (hsize : length < 2 ^ 64) (F : Fin length → α → α)
    (body : ℕ → Vec α length → Except Fault (Vec α length))
    (hbody : ∀ i values, i + w ≤ length → body i values = Except.ok (blockMap w F i values))
    (fuel : ℕ) (hfuel : m < fuel) (values : Vec α length) :
    simdLoop w length body fuel 0 values
      = Except.ok (fun k => if k.val < w * m then F k (values k) else values k) := by
  have h := simdLoop_blockMap w m t ht hm hlen hsize F body hbody m 0 (by omega) fuel hfuel
    values
  rw [Nat.mul_zero] at h
  rw [h]
  congr 1
  funext k
  by_cases hk : k.val < w * m
  · rw [if_pos ⟨Nat.zero_le _, hk⟩, if_pos hk]
  · rw [if_neg (fun hc => hk hc.2), if_neg hk]

/-- An element-wise SIMD loop over an array whose length is a positive multiple of the lane
width, run from index 0 with enough fuel, applies `F` to every element. -/
theorem simdLoop_map {length : ℕ} (w m : ℕ) (hw : 0 < w) (hm : 0 < m)
    (hlen : length = w * m) (hsize : length < 2 ^ 64) (F : Fin length → α → α)
    (body : ℕ → Vec α length → Except Fault (Vec α length))
    (hbody : ∀ i values, i + w ≤ length → body i values = Except.ok (blockMap w F i values))
    (fuel : ℕ) (hfuel : m < fuel) (values : Vec α length) :
    simdLoop w length body fuel 0 values = Except.ok (fun k => F k (values k)) := by
  rw [simdLoop_map_blocks w m 0 hw hm (by omega) hsize F body hbody fuel hfuel values]
  congr 1
  funext k
  rw [if_pos (by rw [← hlen]; exact k.isLt)]

theorem loadu_of_le {length : ℕ} (w : ℕ) (values : Vec α length) (i : ℕ)
    (h : i + w ≤ length) : loadu w values i = Except.ok (loaduIn w values i h) := by
  unfold loadu
  rw [dif_pos h]

theorem storeu_of_le {length : ℕ} (w : ℕ) (values : Vec α length) (i : ℕ) (r : Reg α w)
    (h : i + w ≤ length) : storeu w values i r = Except.ok (storeuRaw w values i r) := by
  unfold storeu
  rw [if_pos h]

/-- Storing a register computed lane by lane from the loaded block is `blockMap`. -/
theorem storeuRaw_eq_blockMap {length : ℕ} (w : ℕ) (values : Vec α length) (i : ℕ)
    (h : i + w ≤ length) (F : Fin length → α → α) (r : Reg α w)
    (hr : ∀ l : Fin w, r l = F ⟨i + l.val, by omega⟩ (values ⟨i + l.val, by omega⟩)) :
    storeuRaw w values i r = blockMap w F i values := by
  funext k
  unfold storeuRaw blockMap
  by_cases hk : i ≤ k.val ∧ k.val < i + w
  · rw [dif_pos hk, if_pos hk, hr]
    have hidx : (⟨i + (k.val - i), by omega⟩ : Fin length) = k := Fin.ext (by simp; omega)
    simp only [hidx]
  · rw [dif_neg hk, if_neg hk]

/-! ## The SIMD element-wise members against the generic ones -/

/-- On a length that is a positive multiple of the lane width, the SIMD `operator+=` runs to
completion and returns what the generic `operator+=` returns. -/
theorem FloatVec.addAssign_eq [Add α] {length : ℕ} (w m : ℕ) (hw : 0 < w)
    (hlen : length = w * (m + 1)) (hsize : length < 2 ^ 64) (fuel : ℕ) (hfuel : m + 1 < fuel)
    (values rhs : Vec α length) :
    FloatVec.addAssign w fuel values rhs = Except.ok (Vec.addAssign values rhs) := by
  unfold FloatVec.addAssign
  rw [simdLoop_map w (m + 1) hw (Nat.succ_pos m) hlen hsize (fun k x => x + rhs k) _
    (by
      intro i values h
      rw [loadu_of_le w values i h, loadu_of_le w rhs i h]
      simp only [Except.bind]
      rw [storeu_of_le w values i _ h]
      congr 1
      exact storeuRaw_eq_blockMap w values i h _ _ (fun l => rfl))
    fuel hfuel values]
  congr 1
  funext k
  rw [Vec.addAssign_elem]

/-- On a length that is a positive multiple of the lane width, the SIMD `operator*=` runs to
completion and returns what the generic `operator*=` returns. -/
theorem FloatVec.mulAssign_eq [Mul α] {length : ℕ} (w m : ℕ) (hw : 0 < w)
    (hlen : length = w * (m + 1)) (hsize : length < 2 ^ 64) (fuel : ℕ) (hfuel : m + 1 < fuel)
    (values rhs : Vec α length) :
    FloatVec.mulAssign w fuel values rhs = Except.ok (Vec.mulAssign values rhs) := by
  unfold FloatVec.mulAssign
  rw [simdLoop_map w (m + 1) hw (Nat.succ_pos m) hlen hsize (fun k x => x * rhs k) _
    (by
      intro i values h
      rw [loadu_of_le w values i h, loadu_of_le w rhs i h]
      simp only [Except.bind]
      rw [storeu_of_le w values i _ h]
      congr 1
      exact storeuRaw_eq_blockMap w values i h _ _ (fun l => rfl))
    fuel hfuel values]
  congr 1
  funext k
  rw [Vec.mulAssign_elem]

/-- On a length that is a positive multiple of the lane width, the SIMD `relu` runs to
completion and returns what the generic `relu` returns. -/
theorem FloatVec.relu_eq [LinearOrder α] [Zero α] {length : ℕ} (w m : ℕ) (hw : 0 < w)
    (hlen : length = w * (m + 1)) (hsize : length < 2 ^ 64) (fuel : ℕ) (hfuel : m + 1 < fuel)
    (values : Vec α length) :
    FloatVec.relu w fuel values = Except.ok (Vec.relu values) := by
  unfold FloatVec.relu
  simp only
  rw [simdLoop_map w (m + 1) hw (Nat.succ_pos m) hlen hsize (fun _ x => max x 0) _
    (by
      intro i values h
      rw [loadu_of_le w values i h]
      simp only [Except.bind]
      rw [storeu_of_le w values i _ h]
      congr 1
      exact storeuRaw_eq_blockMap w values i h _ _ (fun l => rfl))
    fuel hfuel values]
  congr 1
  funext k
  rw [Vec.relu_elem]

/-- On a length `w * (m + 1) + t` with `0 < t < w`, the SIMD `operator+=` runs to completion,
adds inside the whole blocks and leaves the `t` trailing elements as they were. -/
theorem FloatVec.addAssign_blocks [Add α] {length : ℕ} (w m t : ℕ) (ht : t < w)
    (hlen : length = w * (m + 1) + t) (hsize : length < 2 ^ 64) (fuel : ℕ)
    (hfuel : m + 1 < fuel) (values rhs : Vec α length) :
    FloatVec.addAssign w fuel values rhs
      = Except.ok (fun k => if k.val < w * (m + 1) then values k + rhs k else values k) := by
  unfold FloatVec.addAssign
  rw [simdLoop_map_blocks w (m + 1) t ht (Nat.succ_pos m) hlen hsize (fun k x => x + rhs k) _
    (by
      intro i values h
      rw [loadu_of_le w values i h, loadu_of_le w rhs i h]
      simp only [Except.bind]
      rw [storeu_of_le w values i _ h]
      congr 1
      exact storeuRaw_eq_blockMap w values i h _ _ (fun l => rfl))
    fuel hfuel values]

/-! ## The SIMD dot product -/

theorem sum8_eq [AddCommMonoid α] (x : Reg α 8) : sum8 x = ∑ l, x l := by
  rw [Fin.sum_univ_eight]
  show x 0 + x 4 + (x 2 + x 6) + (x 1 + x 5 + (x 3 + x 7)) = _
  abel

theorem sum4_eq [AddCommMonoid α] (v : Reg α 4) : sum4 v = ∑ l, v l := by
  rw [Fin.sum_univ_four]
  show v 0 + v 1 + (v 2 + v 3) = _
  abel

/-- An accumulating SIMD loop over an array whose length is a positive multiple `w * m` of the
lane width: started at block `j` with enough fuel, it stops with a register whose lanes add
up to the lanes it started with plus the terms `G` of all remaining indices. -/
theorem simdLoop_accumulate [AddCommMonoid α] {length : ℕ} (w m : ℕ) (hw : 0 < w)
    (hm : 0 < m) (hlen : length = w * m) (hsize : length < 2 ^ 64) (G : ℕ → α)
    (body : ℕ → Reg α w → Except Fault (Reg α w))
    (hbody : ∀ i c, i + w ≤ length →
      body i c = Except.ok (fun l : Fin w => G (i + l.val) + c l)) :
    ∀ (d j : ℕ), j + d = m → ∀ (fuel : ℕ), d < fuel → ∀ c : Reg α w,
      ∃ r, simdLoop w length body fuel (w * j) c = Except.ok r ∧
        ∑ l, r l = ∑ l, c l + ∑ x in Finset.range (w * d), G (w * j + x) := by
  have hwm : w ≤ w * m := Nat.le_mul_of_pos_right w hm
  have hbound : sizeSub length w = w * m - w := by
    rw [hlen]
    exact sizeSub_of_le hwm (by omega)
  intro d
  induction d with
  | zero =>
    intro j hj fuel hfuel c
    obtain ⟨f, rfl⟩ : ∃ f, fuel = f + 1 := ⟨fuel - 1, by omega⟩
    have hjm : j = m := by omega
    subst hjm
    refine ⟨c, ?_, by simp⟩
    rw [simdLoop_succ, hbound, if_neg (by omega)]
  | succ d ih =>
    intro j hj fuel hfuel c
    obtain ⟨f, rfl⟩ : ∃ f, fuel = f + 1 := ⟨fuel - 1, by omega⟩
    have hj1 : w * (j + 1) ≤ w * m := Nat.mul_le_mul_left w (by omega)
    have hsucc : w * (j + 1) = w * j + w := Nat.mul_succ w j
    obtain ⟨r, hr, hsum⟩ := ih (j + 1) (by omega) f (by omega)
      (fun l : Fin w => G (w * j + l.val) + c l)
    refine ⟨r, ?_, ?_⟩
    · rw [simdLoop_succ, hbound, if_pos (by omega), hbody (w * j) c (by omega)]
      simp only
      rw [sizeAdd_of_lt (by omega), ← hsucc]
      exact hr
    · rw [hsum, Finset.sum_add_distrib, Fin.sum_univ_eq_sum_range (fun x => G (w * j + x)) w,
        Nat.mul_succ w d, Nat.add_comm (w * d) w, Finset.sum_range_add, hsucc]
      simp only [Nat.add_assoc]
      abel

/-- The SIMD `dot` on a length that passes the `static_assert` and is a positive multiple of
the lane width: with a horizontal reduction that adds the lanes, it runs to completion and
returns the generic dot product. -/
theorem FloatVec.dot_eq [Semiring α] {length : ℕ} (w m : ℕ) (hw : 0 < w)
    (hsum : Reg α w → α) (hhsum : ∀ c, hsum c = ∑ l, c l) (hassert : staticAssertLength length = true)
    (hlen : length = w * (m + 1)) (hsize : length < 2 ^ 64) (fuel : ℕ) (hfuel : m + 1 < fuel)
    (values other : Vec α length) :
    FloatVec.dot w hsum fuel values other = Except.ok (Vec.dot values other) := by
  unfold FloatVec.dot
  rw [if_pos hassert]
  obtain ⟨r, hr, hsumr⟩ := simdLoop_accumulate w (m + 1) hw (Nat.succ_pos m) hlen hsize
    (fun x => if h : x < length then values ⟨x, h⟩ * other ⟨x, h⟩ else 0)
    (fun i (c : Reg α w) =>
        (loadu w values i).bind fun va =>
        (loadu w other i).bind fun vb =>
        Except.ok (fmadd_ps va vb c))
    (by
      intro i c h
      beta_reduce
      rw [loadu_of_le w values i h, loadu_of_le w other i h]
      simp only [Except.bind]
      congr 1
      funext l
      have hl : i + l.val < length := by omega
      rw [dif_pos hl]
      rfl)
    (m + 1) 0 (by omega) fuel hfuel (mm_set1_ps 0)
  rw [Nat.mul_zero] at hr
  rw [hr]
  simp only [Except.map]
  congr 1
  rw [hhsum, hsumr, Vec.dot_eq_sum, ← hlen, ← Fin.sum_univ_eq_sum_range]
  simp [mm_set1_ps]

/-! ## The packed-register vector -/

theorem PackedVec.block_bound {length w : ℕ} (b : Fin (length / w)) (l : Fin w) :
    w * b.val + l.val < length := by
  have h1 : w * (b.val + 1) ≤ w * (length / w) := Nat.mul_le_mul_left w b.isLt
  have h2 : w * (length / w) ≤ length := Nat.mul_div_le length w
  have h3 : w * (b.val + 1) = w * b.val + w := Nat.mul_succ w b.val
  have := l.isLt
  omega

/-- Register `b`, lane `l` of the packed vector built from `input` holds element
`w * b + l` of `input`. -/
theorem PackedVec.load_lane {length : ℕ} (w : ℕ) (garbage : PackedVec α w length)
    (input : Vec α length) (b : Fin (length / w)) (l : Fin w) :
    PackedVec.load w garbage input b l = input ⟨w * b.val + l.val, PackedVec.block_bound b l⟩ := by
  unfold PackedVec.load
  rw [forLoop_set_eq]
  unfold loaduIn
  congr 1
  apply Fin.ext
  simp [Nat.mul_comm]

/-- Element `w * b + l` of the stored vector is lane `l` of register `b`. -/
theorem PackedVec.to_simple_vec_lane {length : ℕ} (w : ℕ) (garbage : Vec α length)
    (values : PackedVec α w length) (b : Fin (length / w)) (l : Fin w) :
    PackedVec.to_simple_vec w garbage values ⟨w * b.val + l.val, PackedVec.block_bound b l⟩
      = values b l := by
  have hinv := forLoop_invariant
    (fun (k : ℕ) (result : Vec α length) =>
      ∀ (b : Fin (length / w)) (l : Fin w), b.val < k →
        result ⟨w * b.val + l.val, PackedVec.block_bound b l⟩ = values b l)
    (length / w) (fun i result => storeuRaw w result (w * i.val) (values i)) garbage
    (by intro b l hb; omega)
    (by
      intro i result hres b l hb
      unfold storeuRaw
      beta_reduce
      have hl := l.isLt
      by_cases hbi : b.val = i.val
      · have hbi2 : b = i := Fin.ext hbi
        subst hbi2
        split_ifs with hc
        · congr 1
          apply Fin.ext
          simp
        · exfalso
          apply hc
          simp only
          omega
      · have hlt : b.val < i.val := by omega
        have h1 : w * (b.val + 1) ≤ w * i.val := Nat.mul_le_mul_left w hlt
        have h3 : w * (b.val + 1) = w * b.val + w := Nat.mul_succ w b.val
        split_ifs with hc
        · exfalso
          simp only at hc
          omega
        · exact hres b l hlt)
  exact hinv b l b.isLt

/-- Storing the packed vector built from `v` gives `v` back when the length is a multiple of
the lane width. -/
theorem PackedVec.to_simple_vec_load {length : ℕ} (w : ℕ) (hw : 0 < w)
    (hmul : length % w = 0) (garbage : PackedVec α w length) (garbage2 : Vec α length)
    (v : Vec α length) :
    PackedVec.to_simple_vec w garbage2 (PackedVec.load w garbage v) = v := by
  funext k
  have hdiv : w * (length / w) = length := Nat.mul_div_cancel' (Nat.dvd_of_mod_eq_zero hmul)
  have hk : k.val / w < length / w := by
    rw [Nat.div_lt_iff_lt_mul hw, Nat.mul_comm, hdiv]
    exact k.isLt
  have hidx : (⟨w * (k.val / w) + k.val % w, PackedVec.block_bound ⟨k.val / w, hk⟩
      ⟨k.val % w, Nat.mod_lt _ hw⟩⟩ : Fin length) = k :=
    Fin.ext (Nat.div_add_mod k.val w)
  have h1 := PackedVec.to_simple_vec_lane w garbage2 (PackedVec.load w garbage v)
    ⟨k.val / w, hk⟩ ⟨k.val % w, Nat.mod_lt _ hw⟩
  have h2 := PackedVec.load_lane w garbage v ⟨k.val / w, hk⟩ ⟨k.val % w, Nat.mod_lt _ hw⟩
  simp only [hidx] at h1 h2
  rw [h1, h2]

/-! ## The sigmoid in exact arithmetic -/

theorem Vec.sigmoid_elem [One α] [Add α] [Neg α] [Div α] {n : ℕ} (exp : α → α)
    (v : Vec α n) (i : Fin n) : Vec.sigmoid exp v i = 1 / (1 + exp (-v i)) := by
  unfold Vec.sigmoid
  rw [forLoop_update_eq (fun _ x => 1 / (1 + exp (-x)))]

/-- In exact arithmetic, with an `exp` that is positive everywhere, every component of the
sigmoid lies strictly between 0 and 1, and where `exp 0 = 1` the sigmoid of 0 is `1/2`. This
says nothing about the rounded floating-point evaluation. -/
theorem Vec.sigmoid_exact [LinearOrderedField α] {n : ℕ} (exp : α → α)
    (hpos : ∀ x, 0 < exp x) (v : Vec α n) (i : Fin n) :
    0 < Vec.sigmoid exp v i ∧ Vec.sigmoid exp v i < 1 ∧
    (exp 0 = 1 → v i = 0 → Vec.sigmoid exp v i = 1 / 2) := by
  rw [Vec.sigmoid_elem]
  have he := hpos (-v i)
  have hden : 0 < 1 + exp (-v i) := by linarith
  refine ⟨by positivity, ?_, ?_⟩
  · rw [div_lt_one hden]
    linarith
  · intro h0 hv
    rw [hv, neg_zero, h0]
    norm_num

/-! ## Claims on the SIMD backends -/

/-- C14 (as the code has it): for every length `N ≥ 1` that is a multiple of the lane width
(`w = 8` for AVX, `w = 4` for SSE; `N = w · (m + 1)`, below `2^64`), the SIMD `operator+=`,
`operator*=` and `relu` run to completion and produce at every index the value of the
generic element-wise implementation. -/
theorem FloatVec.elementwise_eq_generic [LinearOrderedRing α] {length : ℕ} (w m : ℕ)
    (hw : w = 8 ∨ w = 4) (hlen : length = w * (m + 1)) (hsize : length < 2 ^ 64) (fuel : ℕ)
    (hfuel : m + 1 < fuel) (values rhs : Vec α length) :
    FloatVec.addAssign w fuel values rhs = Except.ok (Vec.addAssign values rhs) ∧
    FloatVec.mulAssign w fuel values rhs = Except.ok (Vec.mulAssign values rhs) ∧
    FloatVec.relu w fuel values = Except.ok (Vec.relu values) := by
  have hpos : 0 < w := by omega
  exact ⟨FloatVec.addAssign_eq w m hpos hlen hsize fuel hfuel values rhs,
    FloatVec.mulAssign_eq w m hpos hlen hsize fuel hfuel values rhs,
    FloatVec.relu_eq w m hpos hlen hsize fuel hfuel values⟩

/-- C14 at the AVX lane width and `N = 8`. -/
theorem FloatVec.elementwise_eq_generic_witness :
    ((8 : ℕ) = 8 ∨ (8 : ℕ) = 4) ∧ (8 : ℕ) = 8 * (0 + 1) ∧ (8 : ℕ) < 2 ^ 64 ∧ 0 + 1 < 2 ∧
    FloatVec.addAssign 8 2 exampleSigned8 exampleIota8
      = Except.ok (Vec.addAssign exampleSigned8 exampleIota8) ∧
    FloatVec.mulAssign 8 2 exampleSigned8 exampleIota8
      = Except.ok (Vec.mulAssign exampleSigned8 exampleIota8) ∧
    FloatVec.relu 8 2 exampleSigned8 = Except.ok (Vec.relu exampleSigned8) :=
  ⟨Or.inl rfl, rfl, by norm_num, by norm_num,
    FloatVec.elementwise_eq_generic 8 0 (Or.inl rfl) rfl (by norm_num) 2 (by norm_num)
      exampleSigned8 exampleIota8⟩

/-- C14, the claim as stated fails at `N = 12` with the AVX lane width: on twelve ones plus
twelve ones the SIMD `operator+=` stops after the one whole block, so element 8 stays 1,
where the generic `operator+=` gives 2. -/
theorem FloatVec.addAssign_length_twelve :
    (∀ fuel, 1 < fuel →
      FloatVec.addAssign 8 fuel exampleOnes12 exampleOnes12
        = Except.ok (fun k => if k.val < 8 then 2 else 1)) ∧
    Vec.addAssign exampleOnes12 exampleOnes12 ⟨8, by norm_num⟩ = 2 := by
  constructor
  · intro fuel hfuel
    rw [FloatVec.addAssign_blocks 8 0 4 (by norm_num) rfl (by norm_num) fuel (by omega)]
    rfl
  · rw [Vec.addAssign_elem]
    rfl

/-- C15: for every length `N` that is a positive multiple of 8 (`N = 8 · (m + 1)`, below
`2^64`), the AVX dot product (8-lane accumulate, then `sum8`) and the SSE dot product (4-lane
accumulate, then `sum4`) run to completion and equal the generic dot product; `sum8` and
`sum4` return the sum of their lanes. -/
theorem FloatVec.dot_eq_generic [CommRing α] {length : ℕ} (m : ℕ)
    (hlen : length = 8 * (m + 1)) (hsize : length < 2 ^ 64) (fuel : ℕ)
    (hfuel : 2 * (m + 1) < fuel) (values other : Vec α length) (x : Reg α 8) (y : Reg α 4) :
    FloatVec.dot 8 sum8 fuel values other = Except.ok (Vec.dot values other) ∧
    FloatVec.dot 4 sum4 fuel values other = Except.ok (Vec.dot values other) ∧
    sum8 x = x 0 + x 1 + x 2 + x 3 + x 4 + x 5 + x 6 + x 7 ∧
    sum4 y = y 0 + y 1 + y 2 + y 3 := by
  have hassert : staticAssertLength length = true := by
    unfold staticAssertLength
    rw [beq_iff_eq]
    omega
  refine ⟨?_, ?_, ?_, ?_⟩
  · exact FloatVec.dot_eq 8 m (by norm_num) sum8 sum8_eq hassert hlen hsize fuel (by omega)
      values other
  · exact FloatVec.dot_eq 4 (2 * m + 1) (by norm_num) sum4 sum4_eq hassert (by omega) hsize
      fuel (by omega) values other
  · rw [sum8_eq, Fin.sum_univ_eight]
  · rw [sum4_eq, Fin.sum_univ_four]

/-- C15 at `N = 8`: the dot product of `(1, -2, 3, -4, 5, -6, 7, -8)` and `(1, ..., 8)`. -/
theorem FloatVec.dot_eq_generic_witness :
    (8 : ℕ) = 8 * (0 + 1) ∧ (8 : ℕ) < 2 ^ 64 ∧ 2 * (0 + 1) < 3 ∧
    FloatVec.dot 8 sum8 3 exampleSigned8 exampleIota8
      = Except.ok (Vec.dot exampleSigned8 exampleIota8) ∧
    FloatVec.dot 4 sum4 3 exampleSigned8 exampleIota8
      = Except.ok (Vec.dot exampleSigned8 exampleIota8) :=
  ⟨rfl, by norm_num, by norm_num,
    (FloatVec.dot_eq_generic 0 rfl (by norm_num) 3 (by norm_num) exampleSigned8 exampleIota8
      exampleIota8 ![1, 2, 3, 4]).1,
    (FloatVec.dot_eq_generic 0 rfl (by norm_num) 3 (by norm_num) exampleSigned8 exampleIota8
      exampleIota8 ![1, 2, 3, 4]).2.1⟩

/-- C16: for every length `N` that is a multiple of the lane width (`w = 8` for AVX, `w = 4`
for SSE) and every vector `v` of length `N`, loading `v` into the packed-register vector and
storing it back gives `v` at every index, whatever the two storages held before. -/
theorem PackedVec.load_store_roundtrip {length : ℕ} (w : ℕ) (hw : w = 8 ∨ w = 4)
    (hmul : length % w = 0) (garbage : PackedVec α w length) (garbage2 : Vec α length)
    (v : Vec α length) :
    PackedVec.to_simple_vec w garbage2 (PackedVec.load w garbage v) = v :=
  PackedVec.to_simple_vec_load w (by omega) hmul garbage garbage2 v

/-- C16 at the AVX lane width and `N = 8`. -/
theorem PackedVec.load_store_roundtrip_witness :
    ((8 : ℕ) = 8 ∨ (8 : ℕ) = 4) ∧ 8 % 8 = 0 ∧
    PackedVec.to_simple_vec 8 (fun _ => 7) (PackedVec.load 8 (fun _ _ => 9) exampleSigned8)
      = exampleSigned8 :=
  ⟨Or.inl rfl, rfl,
    PackedVec.load_store_roundtrip 8 (Or.inl rfl) rfl (fun _ _ => 9) (fun _ => 7)
      exampleSigned8⟩

/-- The length guard of the `Vec<float, length>` members `FMA` and `dot` rejects every length
that is not a multiple of 8, in the AVX and in the SSE backend alike. -/
theorem FloatVec.staticAssert_rejects [Add α] [Mul α] [Zero α] {length : ℕ} (w : ℕ)
    (hsum : Reg α w → α) (h : length % 8 ≠ 0) (fuel : ℕ) (values a b : Vec α length)
    (s : α) :
    FloatVec.FMAScalar w fuel values a s = Except.error Fault.staticAssert ∧
    FloatVec.FMA w fuel values a b = Except.error Fault.staticAssert ∧
    FloatVec.dot w hsum fuel values a = Except.error Fault.staticAssert := by
  have hassert : staticAssertLength length = false := by
    unfold staticAssertLength
    rw [beq_eq_false_iff_ne]
    omega
  unfold FloatVec.FMAScalar FloatVec.FMA FloatVec.dot
  simp [hassert]

/-- C17, the code at `N = 12` with the AVX lane width, all vectors twelve ones and the scalar
1: the `Vec<float, 12>` members `FMA` and `dot` are rejected by their guard, but the
packed-register members carry no guard. The packed `FMA` is admitted and accumulates into one
register only, so storing the result gives 2 at indices 0 to 7 and the storage's previous
contents (here 7) at indices 8 to 11, where the generic `FMA` gives 2; the packed `dot` is
admitted and returns 8, where the generic `dot` gives 12. -/
theorem PackedVec.FMA_length_twelve :
    (∀ fuel, FloatVec.FMAScalar 8 fuel exampleOnes12 exampleOnes12 1
      = Except.error Fault.staticAssert) ∧
    (∀ fuel, FloatVec.dot 8 sum8 fuel exampleOnes12 exampleOnes12
      = Except.error Fault.staticAssert) ∧
    PackedVec.to_simple_vec 8 (fun _ => 7)
        (PackedVec.FMAFloat 8 (PackedVec.load 8 (fun _ _ => 9) exampleOnes12) exampleOnes12 1)
      = ![2, 2, 2, 2, 2, 2, 2, 2, 7, 7, 7, 7] ∧
    PackedVec.to_simple_vec 8 (fun _ => 7)
        (PackedVec.FMA 8 (PackedVec.load 8 (fun _ _ => 9) exampleOnes12)
          (PackedVec.load 8 (fun _ _ => 9) exampleOnes12) 1)
      = ![2, 2, 2, 2, 2, 2, 2, 2, 7, 7, 7, 7] ∧
    Vec.FMAScalar exampleOnes12 exampleOnes12 1 = (fun _ => 2) ∧
    PackedVec.dot 8 sum8 (PackedVec.load 8 (fun _ _ => 9) exampleOnes12)
        (PackedVec.load 8 (fun _ _ => 9) exampleOnes12) = 8 ∧
    Vec.dot exampleOnes12 exampleOnes12 = 12 := by
  refine ⟨fun fuel => rfl, fun fuel => rfl, by decide, by decide, by decide, by decide,
    by decide⟩

/-! ## Claims on the generic `FMA`, the as-coded matrix product and the doubling constructor -/

theorem Vec.fill_elem {n : ℕ} (val : α) (i : Fin n) : (Vec.fill val : Vec α n) i = val := rfl

/-- C21: for all same-length generic vectors `self`, `a`, `b` and every scalar `s`,
`self.FMA(a, b)` leaves `old self[i] + a[i]·b[i]` at every index and leaves `a` and `b` as
they were; `self.FMA(a, s)` equals `self.FMA(a, Vec(s))`; and both equal `self + a * b`
built from the non-mutating operators. -/
theorem FMA_spec [Add α] [Mul α] {n : ℕ} (self a b : Vec α n) (s : α) :
    (∀ i, Vec.FMA self a b i = self i + a i * b i) ∧
    evalFMA self a b = (Vec.FMA self a b, a, b) ∧
    Vec.FMAScalar self a s = Vec.FMA self a (Vec.fill s) ∧
    Vec.FMA self a b = Vec.add self (Vec.mul a b) ∧
    Vec.FMAScalar self a s = Vec.add self (Vec.mul a (Vec.fill s)) := by
  have hadd : ∀ c : Vec α n, Vec.FMA self a c = Vec.add self (Vec.mul a c) := by
    intro c
    funext i
    show _ = Vec.addAssign self (Vec.mulAssign a c) i
    rw [Vec.FMA_elem, Vec.addAssign_elem, Vec.mulAssign_elem]
  have hscalar : Vec.FMAScalar self a s = Vec.FMA self a (Vec.fill s) := by
    funext i
    rw [Vec.FMAScalar_elem, Vec.FMA_elem, Vec.fill_elem]
  exact ⟨fun i => Vec.FMA_elem self a b i, rfl, hscalar, hadd b, hscalar.trans (hadd _)⟩

/-- C21 at `self = (1, -2, 3, -4, 5, -6, 7, -8)`, `a = (1, ..., 8)` and the scalar 2. -/
theorem FMA_spec_example :
    Vec.FMAScalar exampleSigned8 exampleIota8 2 = ![3, 2, 9, 4, 15, 6, 21, 8] := by
  rw [(FMA_spec exampleSigned8 exampleIota8 exampleIota8 2).2.2.1]
  funext i
  rw [Vec.FMA_elem]
  fin_cases i <;> rfl

/-- C24: as coded (with `transpose` returning its receiver), for all `N×N` matrices `A`, `B`
the result `R` of `A.dot(B)` has `R[i][k] = Σ_j B[i][j] · A[k][j]`, that is `R = B · Aᵀ`;
so `A.dot(B)` is the naive product `A · B` whenever `A` is symmetric and `A` and `B`
commute. -/
theorem SqMatrix.dot_as_coded [CommSemiring α] {n : ℕ} (a b : SqMatrix α n) :
    (∀ i k, SqMatrix.dot a b i k = ∑ j, b i j * a k j) ∧
    ((∀ i j, a i j = a j i) → SqMatrix.naiveDot a b = SqMatrix.naiveDot b a →
      SqMatrix.dot a b = SqMatrix.naiveDot a b) := by
  have hcoded : ∀ i k, SqMatrix.dot a b i k = ∑ j, b i j * a k j := by
    intro i k
    rw [SqMatrix.dot_apply]
    exact Finset.sum_congr rfl (fun j _ => mul_comm _ _)
  refine ⟨hcoded, fun hsymm hcomm => ?_⟩
  rw [hcomm]
  funext i k
  rw [hcoded]
  unfold SqMatrix.naiveDot
  exact Finset.sum_congr rfl (fun j _ => by rw [hsymm k j])

/-- C24 at the symmetric `[[2,1],[1,2]]` and `[[1,1],[1,1]]`, which commute. -/
theorem SqMatrix.dot_as_coded_witness :
    (∀ i j, exampleSymm i j = exampleSymm j i) ∧
    SqMatrix.naiveDot exampleSymm exampleAllOnes = SqMatrix.naiveDot exampleAllOnes exampleSymm ∧
    SqMatrix.dot exampleSymm exampleAllOnes = SqMatrix.naiveDot exampleSymm exampleAllOnes := by
  have hsymm : ∀ i j, exampleSymm i j = exampleSymm j i := by decide
  have hcomm : SqMatrix.naiveDot exampleSymm exampleAllOnes
      = SqMatrix.naiveDot exampleAllOnes exampleSymm := by decide
  exact ⟨hsymm, hcomm, (SqMatrix.dot_as_coded exampleSymm exampleAllOnes).2 hsymm hcomm⟩

theorem max_zero_sub_max_neg_zero [LinearOrderedRing α] (x : α) :
    max x 0 - max (-x) 0 = x ∧ max x 0 + max (-x) 0 = |x| ∧
    (max x 0 = 0 ∨ max (-x) 0 = 0) := by
  by_cases hx : 0 ≤ x
  · have h1 : max x 0 = x := max_eq_left hx
    have h2 : max (-x) 0 = 0 := max_eq_right (neg_nonpos.mpr hx)
    rw [h1, h2, abs_of_nonneg hx]
    exact ⟨sub_zero x, add_zero x, Or.inr rfl⟩
  · have hx2 : x ≤ 0 := le_of_lt (not_le.mp hx)
    have h1 : max x 0 = 0 := max_eq_right hx2
    have h2 : max (-x) 0 = -x := max_eq_left (neg_nonneg.mpr hx2)
    rw [h1, h2, abs_of_nonpos hx2]
    exact ⟨by rw [zero_sub, neg_neg], zero_add (-x), Or.inl rfl⟩

/-- C25: for every source vector `x` of length `n` and the doubled vector `y` built from it,
every element of `y` is `≥ 0`, and for each `i < n` at most one of `y[i]` and `y[n+i]` is
non-zero, `y[i] - y[n+i] = x[i]` and `y[i] + y[n+i] = |x[i]|`. -/
theorem Vec.crelu_lossless [LinearOrderedRing α] (n : ℕ) (garbage : Vec α (2 * n))
    (x : Vec α n) :
    (∀ k, 0 ≤ Vec.crelu (by omega : n = 2 * n / 2) garbage x k) ∧
    ∀ i : Fin n,
      (Vec.crelu (by omega : n = 2 * n / 2) garbage x ⟨i.val, by omega⟩ = 0 ∨
        Vec.crelu (by omega : n = 2 * n / 2) garbage x ⟨i.val + n, by omega⟩ = 0) ∧
      Vec.crelu (by omega : n = 2 * n / 2) garbage x ⟨i.val, by omega⟩
        - Vec.crelu (by omega : n = 2 * n / 2) garbage x ⟨i.val + n, by omega⟩ = x i ∧
      Vec.crelu (by omega : n = 2 * n / 2) garbage x ⟨i.val, by omega⟩
        + Vec.crelu (by omega : n = 2 * n / 2) garbage x ⟨i.val + n, by omega⟩ = |x i| := by
  constructor
  · intro k
    by_cases hk : k.val < n
    · have h := (Vec.crelu_apply (by omega : n = 2 * n / 2) garbage x ⟨k.val, hk⟩).1
      have hidx : (⟨k.val, by omega⟩ : Fin (2 * n)) = k := Fin.ext rfl
      simp only [hidx] at h
      rw [h]
      exact le_max_right _ _
    · have hk2 : k.val - n < n := by omega
      have h := (Vec.crelu_apply (by omega : n = 2 * n / 2) garbage x ⟨k.val - n, hk2⟩).2
      have hidx : (⟨k.val - n + n, by omega⟩ : Fin (2 * n)) = k := Fin.ext (by simp; omega)
      simp only [hidx] at h
      rw [h]
      exact le_max_right _ _
  · intro i
    have h := Vec.crelu_apply (by omega : n = 2 * n / 2) garbage x i
    rw [h.1, h.2]
    have hx := max_zero_sub_max_neg_zero (x i)
    exact ⟨hx.2.2, hx.1, hx.2.1⟩

/-- C25 at `x = (-1, 3)`: the doubled vector is `(0, 3, 1, 0)`, with `0 - 1 = -1` and
`3 - 0 = 3`. -/
theorem Vec.crelu_lossless_example :
    Vec.crelu (by decide : 2 = 2 * 2 / 2) (fun _ => 7) ![(-1 : ℤ), 3] ⟨0, by decide⟩
      - Vec.crelu (by decide : 2 = 2 * 2 / 2) (fun _ => 7) ![(-1 : ℤ), 3] ⟨0 + 2, by decide⟩
      = -1 ∧
    Vec.crelu (by decide : 2 = 2 * 2 / 2) (fun _ => 7) ![(-1 : ℤ), 3] ⟨1, by decide⟩
      - Vec.crelu (by decide : 2 = 2 * 2 / 2) (fun _ => 7) ![(-1 : ℤ), 3] ⟨1 + 2, by decide⟩
      = 3 :=
  ⟨((Vec.crelu_lossless 2 (fun _ => 7) ![(-1 : ℤ), 3]).2 0).2.1,
    ((Vec.crelu_lossless 2 (fun _ => 7) ![(-1 : ℤ), 3]).2 1).2.1⟩

/-! ## The SIMD loops on a length below the lane width -/

/-- On a length below the lane width the bound `length - w` wraps around in `size_t`. -/
theorem sizeSub_of_lt {a b : ℕ} (hab : a < b) (hb : b ≤ 2 ^ 64) :
    sizeSub a b = a + 2 ^ 64 - b := by
  unfold sizeSub
  rcases Nat.lt_or_ge b (2 ^ 64) with h | h
  · rw [Nat.mod_eq_of_lt h]
    omega
  · have hb2 : b = 2 ^ 64 := by omega
    subst hb2
    simp
    omega

theorem loadu_of_lt {length : ℕ} (w : ℕ) (values : Vec α length) (i : ℕ)
    (h : length < i + w) : loadu w values i = Except.error Fault.outOfBounds := by
  unfold loadu
  rw [dif_neg (by omega)]

/-- A SIMD loop always enters its body at `i = 0` (no `size_t` bound is below 0); where the
body faults there, so does the loop. -/
theorem simdLoop_short {length : ℕ} (w : ℕ)
    (body : ℕ → Vec α length → Except Fault (Vec α length))
    (hbody : ∀ values, body 0 values = Except.error Fault.outOfBounds) (fuel : ℕ)
    (values : Vec α length) :
    simdLoop w length body (fuel + 1) 0 values = Except.error Fault.outOfBounds := by
  rw [simdLoop_succ, if_pos (Nat.zero_le _), hbody]

/-- On a length below the lane width the SIMD `operator+=`, `operator*=` and `relu` read
outside the array in their first iteration. -/
theorem FloatVec.elementwise_short [LinearOrder α] [Add α] [Mul α] [Zero α] {length : ℕ}
    (w : ℕ) (hlt : length < w) (fuel : ℕ) (values rhs : Vec α length) :
    FloatVec.addAssign w (fuel + 1) values rhs = Except.error Fault.outOfBounds ∧
    FloatVec.mulAssign w (fuel + 1) values rhs = Except.error Fault.outOfBounds ∧
    FloatVec.relu w (fuel + 1) values = Except.error Fault.outOfBounds := by
  refine ⟨?_, ?_, ?_⟩
  · unfold FloatVec.addAssign
    exact simdLoop_short w _
      (fun v => by
        rw [loadu_of_lt w v 0 (by omega)]
        rfl) fuel values
  · unfold FloatVec.mulAssign
    exact simdLoop_short w _
      (fun v => by
        rw [loadu_of_lt w v 0 (by omega)]
        rfl) fuel values
  · unfold FloatVec.relu
    exact simdLoop_short w _
      (fun v => by
        rw [loadu_of_lt w v 0 (by omega)]
        rfl) fuel values

/-- On a length below the lane width (8 or 4) the loop control alone never leaves the loop:
with a body that does nothing, every index reached is a multiple of the lane width, hence
not above the wrapped bound, and any step budget is used up. -/
theorem simdLoop_control_short {σ : Type v} {length : ℕ} (w : ℕ) (hw : w = 8 ∨ w = 4)
    (hlt : length < w) :
    ∀ (fuel i : ℕ) (s : σ), i % w = 0 → i < 2 ^ 64 →
      simdLoop w length (fun _ t => Except.ok t) fuel i s = Except.error Fault.outOfFuel := by
  have hbound : sizeSub length w = length + 2 ^ 64 - w := sizeSub_of_lt hlt (by omega)
  intro fuel
  induction fuel with
  | zero => intro i s _ _; rfl
  | succ f ih =>
    intro i s hi hi2
    have hcond : i ≤ sizeSub length w := by
      rw [hbound]
      rcases hw with rfl | rfl <;> omega
    rw [simdLoop_succ, if_pos hcond]
    simp only
    apply ih
    · unfold sizeAdd
      rcases hw with rfl | rfl <;> omega
    · unfold sizeAdd
      exact Nat.mod_lt _ (by norm_num)

/-- C22, the code at `N = 4` with the AVX lane width: the bound `length - 8` is `2^64 - 4`, so
the loops of `operator+=`, `operator*=` and `relu` enter their body at `i = 0` and load the
eight elements `values[0..7]`, four of them outside the array; and the loop control by itself
never ends, whatever the step budget. -/
theorem FloatVec.elementwise_length_four :
    sizeSub 4 8 = 2 ^ 64 - 4 ∧
    (∀ fuel, FloatVec.addAssign 8 (fuel + 1) exampleOnes4 exampleOnes4
      = Except.error Fault.outOfBounds) ∧
    (∀ fuel, FloatVec.mulAssign 8 (fuel + 1) exampleOnes4 exampleOnes4
      = Except.error Fault.outOfBounds) ∧
    (∀ fuel, FloatVec.relu 8 (fuel + 1) exampleOnes4 = Except.error Fault.outOfBounds) ∧
    (∀ fuel, simdLoop 8 4 (fun _ (t : Vec ℤ 4) => Except.ok t) fuel 0 exampleOnes4
      = Except.error Fault.outOfFuel) := by
  refine ⟨?_, ?_, ?_, ?_, ?_⟩
  · rw [sizeSub_of_lt (by norm_num) (by norm_num)]
    norm_num
  · intro fuel
    exact (FloatVec.elementwise_short 8 (by norm_num) fuel exampleOnes4 exampleOnes4).1
  · intro fuel
    exact (FloatVec.elementwise_short 8 (by norm_num) fuel exampleOnes4 exampleOnes4).2.1
  · intro fuel
    exact (FloatVec.elementwise_short 8 (by norm_num) fuel exampleOnes4 exampleOnes4).2.2
  · intro fuel
    exact simdLoop_control_short 8 (Or.inl rfl) (by norm_num) fuel 0 exampleOnes4 rfl
      (by norm_num)

/-! ## Packed-register operations against the generic ones -/

/-- On a length that is a multiple of the lane width, a packed vector stores to the vector
`V` when every lane holds the element of `V` at its position. -/
theorem PackedVec.to_simple_vec_eq_of_lanes {length : ℕ} (w : ℕ) (hw : 0 < w)
    (hmul : length % w = 0) (garbage : Vec α length) (values : PackedVec α w length)
    (V : Vec α length)
    (h : ∀ (b : Fin (length / w)) (l : Fin w),
      values b l = V ⟨w * b.val + l.val, PackedVec.block_bound b l⟩) :
    PackedVec.to_simple_vec w garbage values = V := by
  funext k
  have hdiv : w * (length / w) = length := Nat.mul_div_cancel' (Nat.dvd_of_mod_eq_zero hmul)
  have hk : k.val / w < length / w := by
    rw [Nat.div_lt_iff_lt_mul hw, Nat.mul_comm, hdiv]
    exact k.isLt
  have hidx : (⟨w * (k.val / w) + k.val % w, PackedVec.block_bound ⟨k.val / w, hk⟩
      ⟨k.val % w, Nat.mod_lt _ hw⟩⟩ : Fin length) = k :=
    Fin.ext (Nat.div_add_mod k.val w)
  have h1 := PackedVec.to_simple_vec_lane w garbage values
    ⟨k.val / w, hk⟩ ⟨k.val % w, Nat.mod_lt _ hw⟩
  have h2 := h ⟨k.val / w, hk⟩ ⟨k.val % w, Nat.mod_lt _ hw⟩
  simp only [hidx] at h1 h2
  rw [h1, h2]

theorem PackedVec.addAssign_lane [Add α] {length : ℕ} (w : ℕ)
    (values rhs : PackedVec α w length) (b : Fin (length / w)) (l : Fin w) :
    PackedVec.addAssign w values rhs b l = values b l + rhs b l := by
  unfold PackedVec.addAssign
  rw [forLoop_update_eq (fun i x => mm_add_ps x (rhs i))]
  rfl

theorem PackedVec.relu_lane [LinearOrder α] [Zero α] {length : ℕ} (w : ℕ)
    (values : PackedVec α w length) (b : Fin (length / w)) (l : Fin w) :
    PackedVec.relu w values b l = max (values b l) 0 := by
  unfold PackedVec.relu
  rw [forLoop_update_eq (fun _ x => mm_max_ps x (mm_set1_ps 0))]
  rfl

theorem PackedVec.FMAFloat_lane [Add α] [Mul α] {length : ℕ} (w : ℕ)
    (values : PackedVec α w length) (a : Vec α length) (s : α) (b : Fin (length / w))
    (l : Fin w) :
    PackedVec.FMAFloat w values a s b l
      = a ⟨w * b.val + l.val, PackedVec.block_bound b l⟩ * s + values b l := by
  unfold PackedVec.FMAFloat
  rw [forLoop_update_eq (fun i x => fmadd_ps (loaduIn w a (w * i.val) (by
        have h1 : w * (i.val + 1) ≤ w * (length / w) := Nat.mul_le_mul_left w i.isLt
        have h2 : w * (length / w) ≤ length := Nat.mul_div_le length w
        have h3 : w * (i.val + 1) = w * i.val + w := Nat.mul_succ w i.val
        omega)) (mm_set1_ps s) x)]
  rfl

theorem PackedVec.FMA_lane [Add α] [Mul α] {length : ℕ} (w : ℕ)
    (values a : PackedVec α w length) (s : α) (b : Fin (length / w)) (l : Fin w) :
    PackedVec.FMA w values a s b l = a b l * s + values b l := by
  unfold PackedVec.FMA
  rw [forLoop_update_eq (fun i x => fmadd_ps (a i) (mm_set1_ps s) x)]
  rfl

/-- C23: for every length `N` that is a multiple of the lane width (`w = 8` for AVX, `w = 4`
for SSE), float vectors `v`, `a`, `r` and scalar `s`: storing `Packed(v)` after
`+= Packed(r)`, after `relu()`, after `FMA(a, s)` with the scalar-vector operand and after
`FMA(Packed(a), s)` with the packed operand equals, element for element, the generic
`v += r`, `v.relu()` and `v.FMA(a, s)`, whatever the storages held before. -/
theorem PackedVec.ops_commute_with_store [LinearOrderedRing α] {length : ℕ} (w : ℕ)
    (hw : w = 8 ∨ w = 4) (hmul : length % w = 0) (g1 g2 : PackedVec α w length)
    (g3 : Vec α length) (v a r : Vec α length) (s : α) :
    PackedVec.to_simple_vec w g3
        (PackedVec.addAssign w (PackedVec.load w g1 v) (PackedVec.load w g2 r))
      = Vec.addAssign v r ∧
    PackedVec.to_simple_vec w g3 (PackedVec.relu w (PackedVec.load w g1 v)) = Vec.relu v ∧
    PackedVec.to_simple_vec w g3 (PackedVec.FMAFloat w (PackedVec.load w g1 v) a s)
      = Vec.FMAScalar v a s ∧
    PackedVec.to_simple_vec w g3
        (PackedVec.FMA w (PackedVec.load w g1 v) (PackedVec.load w g2 a) s)
      = Vec.FMAScalar v a s := by
  have hpos : 0 < w := by omega
  refine ⟨?_, ?_, ?_, ?_⟩
  · apply PackedVec.to_simple_vec_eq_of_lanes w hpos hmul
    intro b l
    rw [PackedVec.addAssign_lane, PackedVec.load_lane, PackedVec.load_lane, Vec.addAssign_elem]
  · apply PackedVec.to_simple_vec_eq_of_lanes w hpos hmul
    intro b l
    rw [PackedVec.relu_lane, PackedVec.load_lane, Vec.relu_elem]
  · apply PackedVec.to_simple_vec_eq_of_lanes w hpos hmul
    intro b l
    rw [PackedVec.FMAFloat_lane, PackedVec.load_lane, Vec.FMAScalar_elem, add_comm]
  · apply PackedVec.to_simple_vec_eq_of_lanes w hpos hmul
    intro b l
    rw [PackedVec.FMA_lane, PackedVec.load_lane, PackedVec.load_lane, Vec.FMAScalar_elem,
      add_comm]

/-- C23 at the AVX lane width and `N = 8`. -/
theorem PackedVec.ops_commute_with_store_witness :
    ((8 : ℕ) = 8 ∨ (8 : ℕ) = 4) ∧ 8 % 8 = 0 ∧
    PackedVec.to_simple_vec 8 (fun _ => 7)
        (PackedVec.addAssign 8 (PackedVec.load 8 (fun _ _ => 9) exampleSigned8)
          (PackedVec.load 8 (fun _ _ => 5) exampleIota8))
      = Vec.addAssign exampleSigned8 exampleIota8 ∧
    PackedVec.to_simple_vec 8 (fun _ => 7)
        (PackedVec.relu 8 (PackedVec.load 8 (fun _ _ => 9) exampleSigned8))
      = Vec.relu exampleSigned8 ∧
    PackedVec.to_simple_vec 8 (fun _ => 7)
        (PackedVec.FMAFloat 8 (PackedVec.load 8 (fun _ _ => 9) exampleSigned8) exampleIota8 2)
      = Vec.FMAScalar exampleSigned8 exampleIota8 2 ∧
    PackedVec.to_simple_vec 8 (fun _ => 7)
        (PackedVec.FMA 8 (PackedVec.load 8 (fun _ _ => 9) exampleSigned8)
          (PackedVec.load 8 (fun _ _ => 5) exampleIota8) 2)
      = Vec.FMAScalar exampleSigned8 exampleIota8 2 :=
  ⟨Or.inl rfl, rfl,
    PackedVec.ops_commute_with_store 8 (Or.inl rfl) rfl (fun _ _ => 9) (fun _ _ => 5)
      (fun _ => 7) exampleSigned8 exampleIota8 exampleIota8 2⟩

/-! ## Move packing -/

/-- In the range of squares below 64 the three fields of a packed move do not overlap, so the
bitwise OR is a sum. -/
theorem GetMove_eq_add (source destination move_type : ℕ) (hs : source < 64)
    (hd : destination < 64) :
    GetMove source destination move_type = 4096 * move_type + 64 * source + destination := by
  unfold GetMove
  rw [Nat.shiftLeft_eq, Nat.shiftLeft_eq]
  have h1 : move_type * 2 ^ 12 ||| source * 2 ^ 6 = 2 ^ 12 * move_type + source * 2 ^ 6 := by
    rw [Nat.mul_comm move_type]
    exact (Nat.mul_add_lt_is_or (by omega) move_type).symm
  rw [h1]
  have h2 : 2 ^ 12 * move_type + source * 2 ^ 6 = 2 ^ 6 * (64 * move_type + source) := by
    omega
  rw [h2, ← Nat.mul_add_lt_is_or (by omega) (64 * move_type + source)]
  omega

/-- C26: for every source and destination square in `0..63` and every move type in `0..8`
(`kNormalMove` .. `kQueenPromotion`), with `m = GetMove(source, destination, type)`:
`GetMoveSource(m) = source`, `GetMoveDestination(m) = destination`, `GetMoveType(m) = type`,
and `IsMoveForcing(m)` is 1 exactly when `type ≥ kEnPassant` and 0 otherwise. -/
theorem GetMove_roundtrip (source destination move_type : ℕ) (hs : source < 64)
    (hd : destination < 64) (ht : move_type ≤ kQueenPromotion) :
    GetMoveSource (GetMove source destination move_type) = source ∧
    GetMoveDestination (GetMove source destination move_type) = destination ∧
    GetMoveType (GetMove source destination move_type) = move_type ∧
    IsMoveForcing (GetMove source destination move_type)
      = if kEnPassant ≤ move_type then 1 else 0 := by
  have ht2 : move_type ≤ 8 := ht
  have hmask : ∀ x : ℕ, x &&& 0x3F = x % 64 := fun x => Nat.and_pow_two_sub_one_eq_mod x 6
  have htype : GetMoveType (GetMove source destination move_type) = move_type := by
    unfold GetMoveType
    rw [GetMove_eq_add _ _ _ hs hd, Nat.shiftRight_eq_div_pow]
    omega
  refine ⟨?_, ?_, htype, ?_⟩
  · unfold GetMoveSource
    rw [GetMove_eq_add _ _ _ hs hd, hmask, Nat.shiftRight_eq_div_pow]
    omega
  · unfold GetMoveDestination
    rw [GetMove_eq_add _ _ _ hs hd, hmask]
    omega
  · unfold IsMoveForcing
    rw [htype, Nat.shiftRight_eq_div_pow]
    unfold kEnPassant
    split_ifs with h <;> omega

/-- C26 at the capture from square 12 to square 28. -/
theorem GetMove_roundtrip_witness :
    (12 : ℕ) < 64 ∧ (28 : ℕ) < 64 ∧ kCapture ≤ kQueenPromotion ∧
    GetMoveSource (GetMove 12 28 kCapture) = 12 ∧
    GetMoveDestination (GetMove 12 28 kCapture) = 28 ∧
    GetMoveType (GetMove 12 28 kCapture) = kCapture ∧
    IsMoveForcing (GetMove 12 28 kCapture) = if kEnPassant ≤ kCapture then 1 else 0 :=
  ⟨by norm_num, by norm_num, by decide,
    GetMove_roundtrip 12 28 kCapture (by norm_num) (by norm_num) (by decide)⟩

/-! ## Rounding to a fixed precision -/

theorem roundToPrecision_of_pos [LinearOrderedField α] [FloorRing α] (p : ℕ) {x : α}
    (hx : 0 < x) :
    roundToPrecision p x
      = (round (x / (2 : α) ^ (Int.log 2 x - ((p : ℤ) - 1))) : α)
          * (2 : α) ^ (Int.log 2 x - ((p : ℤ) - 1)) := by
  unfold roundToPrecision
  rw [if_neg (ne_of_gt hx), abs_of_pos hx]

theorem two_zpow_natCast [LinearOrderedField α] (n : ℕ) :
    (2 : α) ^ (n : ℤ) = (((2 : ℤ) ^ n : ℤ) : α) := by
  rw [zpow_natCast]
  push_cast
  rfl

/-- Rounding keeps a positive number inside its binade: between the power of two below it and
the next power of two. -/
theorem roundToPrecision_bounds [LinearOrderedField α] [FloorRing α] (p : ℕ) (hp : 1 ≤ p)
    {x : α} (hx : 0 < x) :
    (2 : α) ^ Int.log 2 x ≤ roundToPrecision p x ∧
    roundToPrecision p x ≤ (2 : α) ^ (Int.log 2 x + 1) := by
  have h2 : (0 : α) < 2 := two_pos
  have hlo : (2 : α) ^ Int.log 2 x ≤ x := by
    have := Int.zpow_log_le_self (b := 2) (by norm_num) hx
    simpa using this
  have hhi : x < (2 : α) ^ (Int.log 2 x + 1) := by
    have := Int.lt_zpow_succ_log_self (b := 2) (by norm_num) x
    simpa using this
  obtain ⟨m, rfl⟩ : ∃ m : ℕ, p = m + 1 := ⟨p - 1, by omega⟩
  have hq : ((m + 1 : ℕ) : ℤ) - 1 = (m : ℤ) := by push_cast; ring
  rw [roundToPrecision_of_pos _ hx, hq]
  set e := Int.log 2 x with he
  have hs : (0 : α) < (2 : α) ^ (e - (m : ℤ)) := zpow_pos h2 _
  have hE : (2 : α) ^ e = (2 : α) ^ (m : ℤ) * (2 : α) ^ (e - (m : ℤ)) := by
    rw [← zpow_add₀ (ne_of_gt h2)]
    congr 1
    ring
  have hE1 : (2 : α) ^ (e + 1) = (2 : α) ^ ((m + 1 : ℕ) : ℤ) * (2 : α) ^ (e - (m : ℤ)) := by
    rw [← zpow_add₀ (ne_of_gt h2)]
    congr 1
    push_cast
    ring
  have hdlo : (2 : α) ^ (m : ℤ) ≤ x / (2 : α) ^ (e - (m : ℤ)) := by
    rw [le_div_iff₀ hs, ← hE]
    exact hlo
  have hdhi : x / (2 : α) ^ (e - (m : ℤ)) < (2 : α) ^ ((m + 1 : ℕ) : ℤ) := by
    rw [div_lt_iff₀ hs, ← hE1]
    exact hhi
  have hrlo : ((2 : ℤ) ^ m : ℤ) ≤ round (x / (2 : α) ^ (e - (m : ℤ))) := by
    rw [round_eq, Int.le_floor, ← two_zpow_natCast]
    linarith
  have hrhi : round (x / (2 : α) ^ (e - (m : ℤ))) ≤ ((2 : ℤ) ^ (m + 1) : ℤ) := by
    rw [round_eq, Int.floor_le_iff, ← two_zpow_natCast]
    linarith
  constructor
  · rw [hE, two_zpow_natCast]
    exact mul_le_mul_of_nonneg_right (by exact_mod_cast hrlo) (le_of_lt hs)
  · rw [hE1, two_zpow_natCast]
    exact mul_le_mul_of_nonneg_right (by exact_mod_cast hrhi) (le_of_lt hs)

theorem roundToPrecision_zpow [LinearOrderedField α] [FloorRing α] (p : ℕ) (hp : 1 ≤ p)
    (k : ℤ) : roundToPrecision p ((2 : α) ^ k) = (2 : α) ^ k := by
  have h2 : (0 : α) < 2 := two_pos
  obtain ⟨m, rfl⟩ : ∃ m : ℕ, p = m + 1 := ⟨p - 1, by omega⟩
  have hq : ((m + 1 : ℕ) : ℤ) - 1 = (m : ℤ) := by push_cast; ring
  have hlog : Int.log 2 ((2 : α) ^ k) = k := by
    have := Int.log_zpow (R := α) (b := 2) (by norm_num) k
    simpa using this
  rw [roundToPrecision_of_pos _ (zpow_pos h2 k), hq, hlog]
  have hdiv : (2 : α) ^ k / (2 : α) ^ (k - (m : ℤ)) = (((2 : ℤ) ^ m : ℤ) : α) := by
    rw [← zpow_sub₀ (ne_of_gt h2), ← two_zpow_natCast]
    congr 1
    ring
  rw [hdiv, round_intCast, ← two_zpow_natCast, ← zpow_add₀ (ne_of_gt h2)]
  congr 1
  ring

theorem roundToPrecision_one_add [LinearOrderedField α] [FloorRing α] (p : ℕ) (hp : 1 ≤ p)
    {ε : α} (h0 : 0 ≤ ε) (hε : ε < 1 / (2 : α) ^ p) : roundToPrecision p (1 + ε) = 1 := by
  have h2 : (0 : α) < 2 := two_pos
  obtain ⟨m, rfl⟩ : ∃ m : ℕ, p = m + 1 := ⟨p - 1, by omega⟩
  have hq : ((m + 1 : ℕ) : ℤ) - 1 = (m : ℤ) := by push_cast; ring
  have hpow : (0 : α) < (2 : α) ^ (m + 1) := pow_pos h2 _
  have hpow1 : (1 : α) ≤ (2 : α) ^ (m + 1) := one_le_pow₀ (by norm_num)
  have hε1 : ε < 1 := lt_of_lt_of_le hε (by rw [div_le_one hpow]; exact hpow1)
  have hpos : (0 : α) < 1 + ε := by linarith
  have hlog : Int.log 2 (1 + ε) = 0 := by
    apply le_antisymm
    · have := (Int.lt_zpow_iff_log_lt (R := α) (b := 2) (by norm_num) (x := 1) hpos).mp
        (by norm_num; linarith)
      omega
    · exact (Int.zpow_le_iff_le_log (R := α) (b := 2) (by norm_num) hpos).mp
        (by norm_num; linarith)
  rw [roundToPrecision_of_pos _ hpos, hq, hlog, zero_sub, zpow_neg, zpow_natCast]
  have hm : (0 : α) < (2 : α) ^ m := pow_pos h2 _
  have hdiv : (1 + ε) / ((2 : α) ^ m)⁻¹ = (((2 : ℤ) ^ m : ℤ) : α) + ε * (2 : α) ^ m := by
    rw [div_inv_eq_mul]
    push_cast
    ring
  have hsmall : ε * (2 : α) ^ m < 1 / 2 := by
    have : ε * (2 : α) ^ (m + 1) < 1 := by
      rwa [lt_div_iff₀ hpow] at hε
    rw [pow_succ] at this
    linarith
  have hround : round (ε * (2 : α) ^ m) = 0 := by
    rw [round_eq_zero_iff]
    constructor
    · have : 0 ≤ ε * (2 : α) ^ m := mul_nonneg h0 (le_of_lt hm)
      linarith
    · exact hsmall
  rw [hdiv, round_int_add, hround, add_zero]
  push_cast
  exact mul_inv_cancel₀ (ne_of_gt hm)

theorem roundToPrecision_le_zpow [LinearOrderedField α] [FloorRing α] (p : ℕ) (hp : 1 ≤ p)
    {x : α} (hx : 0 < x) (k : ℤ) (hk : x < (2 : α) ^ k) : roundToPrecision p x ≤ (2 : α) ^ k := by
  have hlog : Int.log 2 x < k := by
    apply (Int.lt_zpow_iff_log_lt (R := α) (b := 2) (by norm_num) hx).mp
    simpa using hk
  apply le_trans (roundToPrecision_bounds p hp hx).2
  exact zpow_le_zpow_right₀ (by norm_num) (by omega)

theorem roundToPrecision_pos [LinearOrderedField α] [FloorRing α] (p : ℕ) (hp : 1 ≤ p)
    {x : α} (hx : 0 < x) : 0 < roundToPrecision p x :=
  lt_of_lt_of_le (zpow_pos two_pos _) (roundToPrecision_bounds p hp hx).1

theorem roundToPrecision_one_le [LinearOrderedField α] [FloorRing α] (p : ℕ) (hp : 1 ≤ p)
    {y : α} (hy : 1 ≤ y) : 1 ≤ roundToPrecision p y := by
  have hpos : (0 : α) < y := lt_of_lt_of_le one_pos hy
  have hlog : 0 ≤ Int.log 2 y := by
    apply (Int.zpow_le_iff_le_log (R := α) (b := 2) (by norm_num) hpos).mp
    simpa using hy
  apply le_trans _ (roundToPrecision_bounds p hp hpos).1
  exact one_le_zpow₀ (by norm_num) hlog

theorem roundToPrecision_one [LinearOrderedField α] [FloorRing α] (p : ℕ) (hp : 1 ≤ p) :
    roundToPrecision p (1 : α) = 1 := by
  have h := roundToPrecision_zpow (α := α) p hp 0
  simpa using h

/-- One element of the rounded sigmoid, for an `exp` value `e ≥ 0`: the result lies in
`[0, 1]`; it is `1/2` for `e = 1`; it is exactly `1` as soon as `e` is below `2^-p`. -/
theorem sigmoidRounded_value [LinearOrderedField α] [FloorRing α] (p : ℕ) (hp : 1 ≤ p)
    {e : α} (he : 0 ≤ e) :
    0 ≤ roundToPrecision p (1 / roundToPrecision p (1 + e)) ∧
    roundToPrecision p (1 / roundToPrecision p (1 + e)) ≤ 1 ∧
    (e = 1 → roundToPrecision p (1 / roundToPrecision p (1 + e)) = 1 / 2) ∧
    (e < 1 / (2 : α) ^ p → roundToPrecision p (1 / roundToPrecision p (1 + e)) = 1) := by
  have hy : 1 ≤ roundToPrecision p (1 + e) := roundToPrecision_one_le p hp (by linarith)
  have hypos : 0 < roundToPrecision p (1 + e) := lt_of_lt_of_le one_pos hy
  have hz : 0 < 1 / roundToPrecision p (1 + e) := one_div_pos.mpr hypos
  have hz1 : 1 / roundToPrecision p (1 + e) ≤ 1 := by
    rw [div_le_one hypos]
    exact hy
  refine ⟨le_of_lt (roundToPrecision_pos p hp hz), ?_, ?_, ?_⟩
  · rcases eq_or_lt_of_le hz1 with h | h
    · rw [h, roundToPrecision_one p hp]
    · have := roundToPrecision_le_zpow p hp hz 0 (by simpa using h)
      simpa using this
  · intro h1
    subst h1
    have h2 : roundToPrecision p ((1 : α) + 1) = 2 := by
      have := roundToPrecision_zpow (α := α) p hp 1
      rw [one_add_one_eq_two]
      simpa using this
    rw [h2]
    have h3 := roundToPrecision_zpow (α := α) p hp (-1)
    rw [zpow_neg_one] at h3
    rw [one_div]
    exact h3
  · intro hsmall
    rw [roundToPrecision_one_add p hp he hsmall, div_one, roundToPrecision_one p hp]

theorem Vec.sigmoidRounded_elem [One α] [Add α] [Neg α] [Div α] {n : ℕ} (rnd exp : α → α)
    (v : Vec α n) (i : Fin n) :
    Vec.sigmoidRounded rnd exp v i = rnd (1 / rnd (1 + exp (-v i))) := by
  unfold Vec.sigmoidRounded
  rw [forLoop_update_eq (fun _ x => rnd (1 / rnd (1 + exp (-x))))]

/-- The exponential of -40 is below `2^-54`. -/
theorem exp_neg_forty_lt : Real.exp (-40) < (2 : ℝ) ^ (-54 : ℤ) := by
  have h1 : (2.7 : ℝ) < Real.exp 1 := lt_trans (by norm_num) Real.exp_one_gt_d9
  have h40 : Real.exp 40 = Real.exp 1 ^ 40 := by
    rw [← Real.exp_nat_mul]
    norm_num
  have hbig : (2 : ℝ) ^ 54 < Real.exp 40 := by
    rw [h40]
    calc (2 : ℝ) ^ 54 < (2.7 : ℝ) ^ 40 := by norm_num
      _ < Real.exp 1 ^ 40 := pow_lt_pow_left₀ h1 (by norm_num) (by norm_num)
  rw [Real.exp_neg, zpow_neg]
  have hpos : (0 : ℝ) < (2 : ℝ) ^ (54 : ℤ) := zpow_pos two_pos _
  rw [inv_lt_inv₀ (Real.exp_pos 40) hpos]
  exact_mod_cast hbig

/-- The correctly rounded exponential of -40, in single or double precision, is a positive
number below `2^-53`. -/
theorem roundToPrecision_exp_neg_forty (p : ℕ) (hp : 1 ≤ p) :
    0 ≤ roundToPrecision p (Real.exp (-40)) ∧
    roundToPrecision p (Real.exp (-40)) < 1 / (2 : ℝ) ^ 53 := by
  have hpos := Real.exp_pos (-40)
  refine ⟨le_of_lt (roundToPrecision_pos p hp hpos), ?_⟩
  apply lt_of_le_of_lt (roundToPrecision_le_zpow p hp hpos (-54) exp_neg_forty_lt)
  rw [zpow_neg, one_div, inv_lt_inv₀ (zpow_pos two_pos _) (pow_pos two_pos _)]
  norm_num

/-! ## Instantiating the determinant and the inverse -/

/-- The object `SqMatrix<type, 2^64 - 1>` would take at least `(2^64 - 1)^2` bytes. -/
theorem SqMatrix.isObjectType_sizeMax (elemSize : ℕ) (helem : 0 < elemSize) :
    SqMatrix.isObjectType elemSize (2 ^ 64 - 1) = false := by
  unfold SqMatrix.isObjectType
  rw [decide_eq_false_iff_not]
  intro h
  have h1 : (2 ^ 64 - 1) * (2 ^ 64 - 1) * 1 ≤ (2 ^ 64 - 1) * (2 ^ 64 - 1) * elemSize :=
    Nat.mul_le_mul_left _ helem
  have h2 : (2 ^ 63 - 1 : ℕ) < (2 ^ 64 - 1) * (2 ^ 64 - 1) * 1 := by norm_num
  omega

/-- The template `DeterminantHelper<type, 0>` cannot be instantiated, at any depth: it is the
general template, whose `h_mat` is a `SqMatrix<type, 2^64 - 1>`. -/
theorem DeterminantHelper.instantiates_zero (elemSize : ℕ) (helem : 0 < elemSize)
    (depth : ℕ) : DeterminantHelper.instantiates elemSize depth 0 = false := by
  cases depth with
  | zero => rfl
  | succ d =>
    have hsub : sizeSub 0 1 = 2 ^ 64 - 1 := by
      rw [sizeSub_of_lt (by norm_num) (by norm_num), Nat.zero_add]
    unfold DeterminantHelper.instantiates
    rw [if_neg (by norm_num), hsub, SqMatrix.isObjectType_sizeMax elemSize helem]
    rfl

theorem SqMatrix.isObjectType_mono (elemSize : ℕ) {m n : ℕ} (hmn : m ≤ n)
    (h : SqMatrix.isObjectType elemSize n = true) : SqMatrix.isObjectType elemSize m = true := by
  unfold SqMatrix.isObjectType at *
  rw [decide_eq_true_eq] at *
  exact le_trans (Nat.mul_le_mul_right _ (Nat.mul_le_mul hmn hmn)) h

/-- The template `DeterminantHelper<type, n + 1>` is instantiated within `n + 1` nested
instantiations when the matrix is an object and its length a `size_t` value. -/
theorem DeterminantHelper.instantiates_succ (elemSize : ℕ) :
    ∀ (n depth : ℕ), n + 1 ≤ depth → n + 1 < 2 ^ 64 →
      SqMatrix.isObjectType elemSize (n + 1) = true →
      DeterminantHelper.instantiates elemSize depth (n + 1) = true := by
  intro n
  induction n with
  | zero =>
    intro depth hd _ _
    obtain ⟨d, rfl⟩ : ∃ d, depth = d + 1 := ⟨depth - 1, by omega⟩
    unfold DeterminantHelper.instantiates
    rw [if_pos rfl]
  | succ n ih =>
    intro depth hd hsize hobj
    obtain ⟨d, rfl⟩ : ∃ d, depth = d + 1 := ⟨depth - 1, by omega⟩
    have hsub : sizeSub (n + 1 + 1) 1 = n + 1 := by
      rw [sizeSub_of_le (by omega) hsize]
      omega
    have hobj2 := SqMatrix.isObjectType_mono elemSize (Nat.le_succ (n + 1)) hobj
    unfold DeterminantHelper.instantiates
    rw [if_neg (by omega), hsub, hobj2, ih d (by omega) (by omega) hobj2]
    rfl

/-- At length 1 the routine fails the instantiation check itself, whatever the depth. -/
theorem SymmetricSquareMatrixInv.instantiates_one (elemSize : ℕ) (helem : 0 < elemSize)
    (depth : ℕ) : SymmetricSquareMatrixInv.instantiates elemSize depth 1 = false := by
  have hsub : sizeSub 1 1 = 0 := by
    rw [sizeSub_of_le (by norm_num) (by norm_num)]
  unfold SymmetricSquareMatrixInv.instantiates
  rw [hsub, DeterminantHelper.instantiates_zero elemSize helem depth]
  simp

/-- An instantiable length of the inverse routine is at least 2. -/
theorem SymmetricSquareMatrixInv.two_le_of_instantiates (elemSize : ℕ) (helem : 0 < elemSize)
    (depth length : ℕ) (h : SymmetricSquareMatrixInv.instantiates elemSize depth length = true) :
    2 ≤ length := by
  rcases Nat.lt_or_ge length 2 with hlt | hge
  · exfalso
    have h01 : length = 0 ∨ length = 1 := by omega
    rcases h01 with rfl | rfl
    · unfold SymmetricSquareMatrixInv.instantiates at h
      rw [DeterminantHelper.instantiates_zero elemSize helem depth] at h
      simp at h
    · rw [SymmetricSquareMatrixInv.instantiates_one elemSize helem depth] at h
      exact Bool.noConfusion h
  · exact hge

/-- The call of the inverse routine at length 1 yields nothing: the instantiation check
fails. -/
theorem SymmetricSquareMatrixInv.call_one [Ring α] [Div α] (elemSize : ℕ)
    (helem : 0 < elemSize) (depth : ℕ) (mat : SqMatrix α 1) :
    SymmetricSquareMatrixInv.call elemSize depth 1 mat = none := by
  unfold SymmetricSquareMatrixInv.call
  rw [SymmetricSquareMatrixInv.instantiates_one elemSize helem depth]
  rfl

/-- From length 2 on, with enough instantiation depth and a matrix that is an object, the
call is the routine's value. -/
theorem SymmetricSquareMatrixInv.call_succ_succ [Ring α] [Div α] (elemSize depth n : ℕ)
    (hd : n + 2 ≤ depth) (hsize : n + 2 < 2 ^ 64)
    (hobj : SqMatrix.isObjectType elemSize (n + 2) = true) (mat : SqMatrix α (n + 2)) :
    SymmetricSquareMatrixInv.call elemSize depth (n + 2) mat
      = some (SymmetricSquareMatrixInv mat) := by
  have hsub : sizeSub (n + 2) 1 = n + 1 := by
    rw [sizeSub_of_le (by omega) hsize]
    omega
  have hobj2 := SqMatrix.isObjectType_mono elemSize (Nat.le_succ (n + 1)) hobj
  have h1 := DeterminantHelper.instantiates_succ elemSize (n + 1) depth hd hsize hobj
  have h2 := DeterminantHelper.instantiates_succ elemSize n depth (by omega) (by omega) hobj2
  have hinst : SymmetricSquareMatrixInv.instantiates elemSize depth (n + 2) = true := by
    unfold SymmetricSquareMatrixInv.instantiates
    rw [hsub, h1, hobj2, h2]
    rfl
  unfold SymmetricSquareMatrixInv.call
  rw [if_pos hinst]

/-- C11 (as the code has it): for every 1×1 matrix `[[a]]`, `Determinant` returns `a`; the
inverse routine has no instance at `N = 1`, at any instantiation depth, because it needs
`Determinant` of a 0×0 matrix and `DeterminantHelper` has a base case at length 1 only (the
general template at length 0 declares a `SqMatrix<type, 2^64 - 1>`), so a call on `[[a]]`
returns nothing. From `N = 2` on the call exists and is the routine's value. -/
theorem SymmetricSquareMatrixInv_call_lengthOne [Ring α] [Div α] (elemSize : ℕ)
    (helem : 0 < elemSize) (a : α) :
    Determinant (![![a]] : SqMatrix α 1) = a ∧
    (∀ depth, SymmetricSquareMatrixInv.instantiates elemSize depth 1 = false) ∧
    (∀ depth, SymmetricSquareMatrixInv.call elemSize depth 1 (![![a]] : SqMatrix α 1) = none) ∧
    (∀ (depth n : ℕ) (mat : SqMatrix α (n + 2)), n + 2 ≤ depth → n + 2 < 2 ^ 64 →
      SqMatrix.isObjectType elemSize (n + 2) = true →
      SymmetricSquareMatrixInv.call elemSize depth (n + 2) mat
        = some (SymmetricSquareMatrixInv mat)) :=
  ⟨rfl, fun depth => SymmetricSquareMatrixInv.instantiates_one elemSize helem depth,
    fun depth => SymmetricSquareMatrixInv.call_one elemSize helem depth _,
    fun depth n mat hd hsize hobj =>
      SymmetricSquareMatrixInv.call_succ_succ elemSize depth n hd hsize hobj mat⟩

/-- C11 at `double` elements (`sizeof` 8) and depth 900: `[[5]]` has determinant 5 and no
inverse is returned, while the 2×2 matrix `[[2,0],[0,3]]` gets its inverse. -/
theorem SymmetricSquareMatrixInv_call_lengthOne_witness :
    0 < 8 ∧ Determinant (![![5]] : SqMatrix ℚ 1) = 5 ∧
    SymmetricSquareMatrixInv.call 8 900 1 (![![5]] : SqMatrix ℚ 1) = none ∧
    SymmetricSquareMatrixInv.call 8 900 2 exampleDiag
      = some (SymmetricSquareMatrixInv exampleDiag) :=
  ⟨by norm_num,
    (SymmetricSquareMatrixInv_call_lengthOne 8 (by norm_num) (5 : ℚ)).1,
    (SymmetricSquareMatrixInv_call_lengthOne 8 (by norm_num) (5 : ℚ)).2.2.1 900,
    (SymmetricSquareMatrixInv_call_lengthOne 8 (by norm_num) (5 : ℚ)).2.2.2 900 0 exampleDiag
      (by norm_num) (by norm_num) (by decide)⟩

/-- C11, the claim as stated fails at `[[5]]`: the inverse routine cannot be instantiated at
`N = 1` and the call returns nothing, so it does not return `[[1/5]]`. -/
theorem SymmetricSquareMatrixInv_call_five :
    (∀ depth, SymmetricSquareMatrixInv.instantiates 8 depth 1 = false) ∧
    (∀ depth, SymmetricSquareMatrixInv.call 8 depth 1 (![![5]] : SqMatrix ℚ 1) = none) ∧
    (∀ depth, SymmetricSquareMatrixInv.call 8 depth 1 (![![5]] : SqMatrix ℚ 1)
      ≠ some ![![1 / 5]]) := by
  refine ⟨fun depth => SymmetricSquareMatrixInv.instantiates_one 8 (by norm_num) depth,
    fun depth => SymmetricSquareMatrixInv.call_one 8 (by norm_num) depth _, fun depth h => ?_⟩
  rw [SymmetricSquareMatrixInv.call_one 8 (by norm_num)] at h
  exact Option.noConfusion h

/-! ## The sigmoid in floating point -/

/-- C20 (as the code has it): `sigmoid()` replaces every element `x` by `1/(1+exp(-x))`
evaluated in the element type, the sum and the quotient each rounded to `p` significant bits;
for the zero vector every component becomes exactly `1/2`; every resulting component lies
between 0 and 1 inclusive; and the value is exactly 1 wherever `exp(-x)` is below `2^-p`. -/
theorem Vec.sigmoidRounded_spec [LinearOrderedField α] [FloorRing α] {n : ℕ} (p : ℕ)
    (hp : 1 ≤ p) (exp : α → α) (hexp : ∀ x, 0 ≤ exp x) (v : Vec α n) (i : Fin n) :
    Vec.sigmoidRounded (roundToPrecision p) exp v i
      = roundToPrecision p (1 / roundToPrecision p (1 + exp (-v i))) ∧
    0 ≤ Vec.sigmoidRounded (roundToPrecision p) exp v i ∧
    Vec.sigmoidRounded (roundToPrecision p) exp v i ≤ 1 ∧
    (exp 0 = 1 → v i = 0 → Vec.sigmoidRounded (roundToPrecision p) exp v i = 1 / 2) ∧
    (exp (-v i) < 1 / (2 : α) ^ p →
      Vec.sigmoidRounded (roundToPrecision p) exp v i = 1) := by
  have h := sigmoidRounded_value p hp (hexp (-v i))
  rw [Vec.sigmoidRounded_elem]
  refine ⟨rfl, h.1, h.2.1, ?_, h.2.2.2⟩
  intro h0 hv
  apply h.2.2.1
  rw [hv, neg_zero, h0]

/-- C20 in double precision with the correctly rounded exponential, at the vector
`(0, 40)`: the first component is `1/2`, the second is exactly 1. -/
theorem Vec.sigmoidRounded_spec_witness :
    1 ≤ 53 ∧ (∀ x : ℝ, 0 ≤ roundToPrecision 53 (Real.exp x)) ∧
    Vec.sigmoidRounded (roundToPrecision 53) (fun x => roundToPrecision 53 (Real.exp x))
      (![0, 40] : Vec ℝ 2) 0 = 1 / 2 ∧
    Vec.sigmoidRounded (roundToPrecision 53) (fun x => roundToPrecision 53 (Real.exp x))
      (![0, 40] : Vec ℝ 2) 1 = 1 := by
  have hexp : ∀ x : ℝ, 0 ≤ roundToPrecision 53 (Real.exp x) :=
    fun x => le_of_lt (roundToPrecision_pos 53 (by norm_num) (Real.exp_pos x))
  refine ⟨by norm_num, hexp, ?_, ?_⟩
  · apply (Vec.sigmoidRounded_spec 53 (by norm_num)
      (fun x => roundToPrecision 53 (Real.exp x)) hexp (![0, 40] : Vec ℝ 2) 0).2.2.2.1
    · show roundToPrecision 53 (Real.exp 0) = 1
      rw [Real.exp_zero, roundToPrecision_one 53 (by norm_num)]
    · rfl
  · apply (Vec.sigmoidRounded_spec 53 (by norm_num)
      (fun x => roundToPrecision 53 (Real.exp x)) hexp (![0, 40] : Vec ℝ 2) 1).2.2.2.2
    show roundToPrecision 53 (Real.exp (-(![0, 40] : Vec ℝ 2) 1)) < 1 / (2 : ℝ) ^ 53
    have hv : (![0, 40] : Vec ℝ 2) 1 = 40 := rfl
    rw [hv]
    exact (roundToPrecision_exp_neg_forty 53 (by norm_num)).2

/-- C20, the claim as stated fails at the finite input `x = 40`: in double precision (and in
single precision) `1 + exp(-40)` rounds to 1, so the sigmoid is exactly 1, not strictly
below 1. -/
theorem Vec.sigmoidRounded_forty :
    Vec.sigmoidRounded (roundToPrecision 53) (fun x => roundToPrecision 53 (Real.exp x))
      (![40] : Vec ℝ 1) 0 = 1 ∧
    Vec.sigmoidRounded (roundToPrecision 24) (fun x => roundToPrecision 24 (Real.exp x))
      (![40] : Vec ℝ 1) 0 = 1 ∧
    ¬ (Vec.sigmoidRounded (roundToPrecision 53) (fun x => roundToPrecision 53 (Real.exp x))
      (![40] : Vec ℝ 1) 0 < 1) := by
  have h53 : Vec.sigmoidRounded (roundToPrecision 53)
      (fun x => roundToPrecision 53 (Real.exp x)) (![40] : Vec ℝ 1) 0 = 1 := by
    rw [Vec.sigmoidRounded_elem]
    have hv : (![40] : Vec ℝ 1) 0 = 40 := rfl
    rw [hv]
    have hb := roundToPrecision_exp_neg_forty 53 (by norm_num)
    exact (sigmoidRounded_value 53 (by norm_num) hb.1).2.2.2 hb.2
  have h24 : Vec.sigmoidRounded (roundToPrecision 24)
      (fun x => roundToPrecision 24 (Real.exp x)) (![40] : Vec ℝ 1) 0 = 1 := by
    rw [Vec.sigmoidRounded_elem]
    have hv : (![40] : Vec ℝ 1) 0 = 40 := rfl
    rw [hv]
    have hb := roundToPrecision_exp_neg_forty 24 (by norm_num)
    refine (sigmoidRounded_value 24 (by norm_num) hb.1).2.2.2 (lt_trans hb.2 ?_)
    rw [one_div, one_div, inv_lt_inv₀ (pow_pos two_pos _) (pow_pos two_pos _)]
    norm_num
  exact ⟨h53, h24, by rw [h53]; exact lt_irrefl 1⟩

end Winter
